import Mathlib

/-!
Verification development for the optimap-route-optimizer backend.

The Python sources under backend/app are shallowly embedded below:
strings become lists of characters, floats become rationals, and the
stateful cache becomes explicit state passing with an explicit clock.
Third-party collaborators that the backend calls (the cachetools TTLCache,
the OR-Tools routing solver) are embedded through their documented
contracts, as explained at each definition.
-/

/-! ### Character-level helpers (ASCII fragment of Python semantics)

These model, on the ASCII fragment, the pieces of Python used by
GeocodingCache._normalize_address: str.lower, str.strip, the regex
classes backslash-s (whitespace) and backslash-w (word characters). -/

/-- Python whitespace as matched by the regex class backslash-s and
stripped by str.strip, restricted to ASCII. -/
def pyIsSpace (c : Char) : Bool :=
  c = ' ' || c = '\t' || c = '\n' || c = '\r' || c = '\x0b' || c = '\x0c'

/-- ASCII lowercasing, as done by str.lower on ASCII text: the code
points 65 through 90 (A through Z) are shifted to 97 through 122. -/
def pyLowerChar (c : Char) : Char :=
  if 65 ≤ c.toNat ∧ c.toNat ≤ 90 then Char.ofNat (c.toNat + 32) else c

/-- Word characters of the regex class backslash-w, restricted to ASCII:
letters, digits and the underscore. -/
def pyIsWordChar (c : Char) : Bool :=
  c.isAlphanum || c = '_'

/-- str.strip: drop leading and trailing whitespace. -/
def stripEnds (l : List Char) : List Char :=
  ((l.dropWhile pyIsSpace).reverse.dropWhile pyIsSpace).reverse

/-- Helper for collapseSpaces; the flag records whether the previous
character was whitespace (in which case further whitespace is dropped). -/
def collapseAux : Bool → List Char → List Char
  | _, [] => []
  | prev, c :: cs =>
    if pyIsSpace c then
      if prev then collapseAux true cs else ' ' :: collapseAux true cs
    else c :: collapseAux false cs

/-- re.sub of one-or-more whitespace by a single space: every maximal run
of whitespace characters is replaced by one space character. -/
def collapseSpaces (l : List Char) : List Char :=
  collapseAux false l

/-- Helper for chunks: k is the word-character class of the run being
accumulated, cur the reversed run accumulated so far (nonempty). -/
def chunksAux (k : Bool) (cur : List Char) : List Char → List (List Char)
  | [] => [cur.reverse]
  | c :: cs =>
    if pyIsWordChar c = k then chunksAux k (c :: cur) cs
    else cur.reverse :: chunksAux (pyIsWordChar c) [c] cs

/-- Split a string into its maximal runs of word characters and maximal
runs of non-word characters, in order. -/
def chunks : List Char → List (List Char)
  | [] => []
  | c :: cs => chunksAux (pyIsWordChar c) [c] cs

/-- Replace the run t by r when it equals the word w, else keep it. -/
def replaceRun (w r t : List Char) : List Char :=
  if t = w then r else t

/-- re.sub of a word-boundary-delimited word pattern: since the pattern
consists of word characters only with a word boundary on each side, its
matches are exactly the maximal word-character runs equal to the word, so
the substitution replaces each such run by the replacement. -/
def replaceWord (w r : List Char) (s : List Char) : List Char :=
  ((chunks s).map (replaceRun w r)).flatten

/-- The abbreviation table of GeocodingCache._normalize_address, in the
order the source iterates it.  Each pair is (pattern word, replacement).
The source spells the boulevard pattern as a raw string in which the
backslash-b escape swallows the letter b, so the pattern word actually
matched is oulevard, not boulevard; the embedding reproduces that. -/
def abbreviations : List (List Char × List Char) :=
  [("street".toList, "st".toList),
   ("avenue".toList, "ave".toList),
   ("road".toList, "rd".toList),
   ("drive".toList, "dr".toList),
   ("oulevard".toList, "blvd".toList),
   ("lane".toList, "ln".toList),
   ("court".toList, "ct".toList),
   ("place".toList, "pl".toList),
   ("apartment".toList, "apt".toList),
   ("suite".toList, "ste".toList),
   ("north".toList, "n".toList),
   ("south".toList, "s".toList),
   ("east".toList, "e".toList),
   ("west".toList, "w".toList)]

/-- Apply all fourteen abbreviation substitutions in source order. -/
def applyAbbrevs (s : List Char) : List Char :=
  abbreviations.foldl (fun acc wr => replaceWord wr.1 wr.2 acc) s

/-- re.sub removing commas and periods. -/
def stripPunct (l : List Char) : List Char :=
  l.filter (fun c => !(c = ',' || c = '.'))

/-- GeocodingCache._normalize_address: lowercase and strip, collapse
whitespace runs to single spaces, apply the abbreviation substitutions,
then remove commas and periods. -/
def _normalize_address (address : List Char) : List Char :=
  stripPunct (applyAbbrevs (collapseSpaces (stripEnds (address.map pyLowerChar))))

/-! ### GeocodingCache (utils/geocoding_cache.py)

State-passing embedding.  The backing cachetools TTLCache is embedded by
its documented contract: entries carry an absolute expiry instant
(insertion time plus ttl); a lookup returns a live entry's value and
treats an expired one as absent; an insert replaces any entry with the
same key, becomes the most recently used entry, and evicts least recently
used entries while over capacity.  Entries are kept most-recent-first,
and an explicit clock (now) replaces the wall clock. -/

structure GeocodingCache where
  entries : List (List Char × ((ℚ × ℚ) × ℚ))
  hits : ℕ
  misses : ℕ
  maxsize : ℕ
  ttl : ℚ

/-- Lookup in the embedded TTLCache: the value of the stored entry with
this key, provided it has not expired. -/
def GeocodingCache.lookup (c : GeocodingCache) (key : List Char) (now : ℚ) :
    Option (ℚ × ℚ) :=
  match c.entries.find? (fun e => e.1 == key) with
  | some e => if now < e.2.2 then some e.2.1 else none
  | none => none

/-- GeocodingCache.get: None for an empty or whitespace-only address
(without touching the counters); otherwise look up the normalized key and
count a hit or a miss. -/
def GeocodingCache.get (c : GeocodingCache) (address : List Char) (now : ℚ) :
    Option (ℚ × ℚ) × GeocodingCache :=
  if stripEnds address = [] then (none, c)
  else
    match c.lookup (_normalize_address address) now with
    | some v => (some v, { c with hits := c.hits + 1 })
    | none => (none, { c with misses := c.misses + 1 })

/-- GeocodingCache.set: ignore an empty or whitespace-only address;
otherwise store the coordinates under the normalized key, replacing any
entry with that key, and evict from the least recently used end while
over capacity. -/
def GeocodingCache.set (c : GeocodingCache) (address : List Char)
    (latitude longitude : ℚ) (now : ℚ) : GeocodingCache :=
  if stripEnds address = [] then c
  else
    { c with entries :=
        ((_normalize_address address, ((latitude, longitude), now + c.ttl)) ::
          c.entries.filter (fun e => !(e.1 == _normalize_address address))).take c.maxsize }

/-- GeocodingCache.clear: drop all entries and reset both counters. -/
def GeocodingCache.clear (c : GeocodingCache) : GeocodingCache :=
  { c with entries := [], hits := 0, misses := 0 }

/-! ### GeocodingClient.geocode_address (services/geocoding_client.py)

Embedding of the control flow of geocode_address.  The network-facing
provider stage (the _geocode_nominatim or _geocode_google or
_geocode_mapbox call together with _make_request) is abstracted into a
parameter giving that stage's outcome, and the observable effects of a
call are recorded in order: consulting the cache, waiting on the rate
limiter, issuing the network request, writing the cache. -/

inductive GeoOutcome where
  | ok (lat lon : ℚ)
  | errGeneric
  | errNotFound
  | errTimeout
  | errService
deriving DecidableEq

inductive GeoEffect where
  | cacheConsult
  | rateLimitWait
  | networkRequest
  | cacheWrite
deriving DecidableEq

/-- GeocodingClient.geocode_address: an empty or whitespace-only address
raises the base GeocodingError at once; otherwise the stripped address is
looked up in the cache (when one is configured), a hit returning without
rate limiting or network traffic, and a miss deferring to the provider
stage, whose successful result is written back to the cache. -/
def geocode_address (address : List Char) (cache_enabled : Bool)
    (cache : GeocodingCache) (now : ℚ) (provider_outcome : GeoOutcome) :
    GeoOutcome × List GeoEffect :=
  if stripEnds address = [] then (.errGeneric, [])
  else
    if cache_enabled then
      match (cache.get (stripEnds address) now).1 with
      | some v => (.ok v.1 v.2, [.cacheConsult])
      | none =>
        match provider_outcome with
        | .ok lat lon =>
            (.ok lat lon, [.cacheConsult, .rateLimitWait, .networkRequest, .cacheWrite])
        | e => (e, [.cacheConsult, .rateLimitWait, .networkRequest])
    else
      match provider_outcome with
      | .ok lat lon => (.ok lat lon, [.rateLimitWait, .networkRequest])
      | e => (e, [.rateLimitWait, .networkRequest])

/-! ### OSRMClient.get_distance_matrix validation (services/osrm_client.py)

Embedding of the response validation performed after the table request:
the location-count precondition, the presence check on the extracted
distances and durations lists (Python falsiness of an empty list), and
the dimension check, which compares only the row counts of the two
matrices against the number of locations. -/

inductive OSRMCheckError where
  | valueError
  | missingData
  | dimensionMismatch
deriving DecidableEq

/-- The validation pipeline of OSRMClient.get_distance_matrix for a
request over n locations whose parsed response carries the given
distances and durations matrices; on success the matrices are returned
exactly as received. -/
def get_distance_matrix (n : ℕ) (distances durations : List (List ℚ)) :
    Except OSRMCheckError (List (List ℚ) × List (List ℚ)) :=
  if n < 2 then .error .valueError
  else if distances = [] ∨ durations = [] then .error .missingData
  else if distances.length ≠ n ∨ durations.length ≠ n then .error .dimensionMismatch
  else .ok (distances, durations)

/-! ### ORToolsVRPSolver (services/vrp_solver.py)

The OR-Tools routing library is an external black box driven by the
PATH_CHEAPEST_ARC first-solution strategy under a solve time limit; for
this configuration (one vehicle, every node mandatory, depot start and
end) its documented contract is: if a solution is returned, it is a
feasible closed tour -- starting and ending at the depot and visiting
every other node exactly once -- and the reported objective value is the
sum of the registered arc costs, each matrix entry being truncated to an
integer by the distance callback (Python int()).  The heuristic search
aims at a minimum-cost tour but, within its time limit, guarantees only
feasibility, never optimality.  The guaranteed part of the contract is
ORToolsVRPSolver.mayReturn below; the executable ORToolsVRPSolver.solve
pins one contract-conforming behavior (exact minimization) so that the
pipeline has a concrete value to compute with, and any theorem that
needs minimality states it as an explicit hypothesis instead of reading
it off that pinned model.  _extract_solution's walk from the start token
with the final depot appended gives each candidate the shape
depot :: interior ++ [depot]. -/

/-- Python int() on a rational: truncation toward zero. -/
def pyInt (q : ℚ) : ℤ :=
  if 0 ≤ q then ⌊q⌋ else ⌈q⌉

/-- The solver objective for a visiting order: the sum over consecutive
pairs of the integer-truncated matrix entries, as accumulated by the
registered transit callback. -/
def objective_cost (distance_matrix : ℕ → ℕ → ℚ) : List ℕ → ℤ
  | a :: b :: rest => pyInt (distance_matrix a b) + objective_cost distance_matrix (b :: rest)
  | [] => 0
  | [_] => 0

/-- All closed tours from the depot for n locations: the depot, then a
permutation of the remaining indices, then the depot again. -/
def tourCandidates (n depot : ℕ) : List (List ℕ) :=
  (((List.range n).filter (fun i => i != depot)).permutations').map
    (fun p => depot :: (p ++ [depot]))

/-- ORToolsVRPSolver.solve pinned to one behavior the contract allows:
the minimum-objective tour together with the reported objective value, or
none when there is no candidate.  The real solver promises only
mayReturn below, not this minimality. -/
def ORToolsVRPSolver.solve (n depot : ℕ) (distance_matrix : ℕ → ℕ → ℚ) :
    Option (List ℕ × ℤ) :=
  (List.argmin (objective_cost distance_matrix) (tourCandidates n depot)).map
    (fun r => (r, objective_cost distance_matrix r))

/-- Everything the OR-Tools contract actually guarantees about a returned
solution: the visiting order is one of the feasible closed tours from the
depot, and the reported objective value is that tour's truncated-arc
cost.  Which feasible tour the heuristic search finds within its time
limit is unspecified, and no optimality is promised. -/
def ORToolsVRPSolver.mayReturn (n depot : ℕ) (distance_matrix : ℕ → ℕ → ℚ)
    (r : List ℕ) (c : ℤ) : Prop :=
  r ∈ tourCandidates n depot ∧ c = objective_cost distance_matrix r

/-! ### optimize_route metrics assembly (routers/optimize.py) -/

/-- _calculate_route_distance: sum the matrix entries over consecutive
pairs of the visiting order. -/
def _calculate_route_distance : List ℕ → (ℕ → ℕ → ℚ) → ℚ
  | a :: b :: rest, distance_matrix =>
      distance_matrix a b + _calculate_route_distance (b :: rest) distance_matrix
  | [], _ => 0
  | [_], _ => 0

/-- _calculate_route_duration: identical traversal over the duration
matrix. -/
def _calculate_route_duration : List ℕ → (ℕ → ℕ → ℚ) → ℚ
  | a :: b :: rest, duration_matrix =>
      duration_matrix a b + _calculate_route_duration (b :: rest) duration_matrix
  | [], _ => 0
  | [_], _ => 0

/-- The baseline sequential route built in optimize_route Step 4:
0, 1, ..., n-1 and back to 0, whatever the chosen depot index. -/
def baseline_route_indices (n : ℕ) : List ℕ :=
  List.range n ++ [0]

/-- The metrics carried by the OptimizationResponse that the claims are
about. -/
structure OptimizationOutcome where
  optimized_route : List ℕ
  optimized_distance : ℤ
  optimized_duration : ℚ
  baseline_distance : ℚ
  baseline_duration : ℚ
  distance_saved_percentage : ℚ
  time_saved_percentage : ℚ
deriving DecidableEq

/-- Steps 2 through 5 of optimize_route: solve the VRP over the distance
matrix, price the optimized route on the duration matrix, price the
baseline sequential route on both matrices, and derive the savings
percentages, each defined as 0 when its baseline total is not positive. -/
def optimize_route (n depot : ℕ) (distances durations : ℕ → ℕ → ℚ) :
    Option OptimizationOutcome :=
  (ORToolsVRPSolver.solve n depot distances).map (fun rc =>
    let optimized_duration := _calculate_route_duration rc.1 durations
    let baseline_distance := _calculate_route_distance (baseline_route_indices n) distances
    let baseline_duration := _calculate_route_duration (baseline_route_indices n) durations
    { optimized_route := rc.1
      optimized_distance := rc.2
      optimized_duration := optimized_duration
      baseline_distance := baseline_distance
      baseline_duration := baseline_duration
      distance_saved_percentage :=
        if 0 < baseline_distance then (baseline_distance - (rc.2 : ℚ)) / baseline_distance * 100 else 0
      time_saved_percentage :=
        if 0 < baseline_duration then (baseline_duration - optimized_duration) / baseline_duration * 100 else 0 })

/-- Steps 3 through 5 of optimize_route for one solver result (r, c):
price the returned route on the duration matrix, price the baseline
sequential route on both matrices, and derive the savings percentages,
each defined as 0 when its baseline total is not positive.
optimize_route is exactly this assembly applied to the solver output
(optimize_route_eq_assemble); stating the metric properties over
assemble_metrics lets them be proved for every output the solver
contract allows, not only for the pinned minimizing model. -/
def assemble_metrics (n : ℕ) (distances durations : ℕ → ℕ → ℚ)
    (r : List ℕ) (c : ℤ) : OptimizationOutcome :=
  { optimized_route := r
    optimized_distance := c
    optimized_duration := _calculate_route_duration r durations
    baseline_distance := _calculate_route_distance (baseline_route_indices n) distances
    baseline_duration := _calculate_route_duration (baseline_route_indices n) durations
    distance_saved_percentage :=
      if 0 < _calculate_route_distance (baseline_route_indices n) distances then
        (_calculate_route_distance (baseline_route_indices n) distances - (c : ℚ)) /
          _calculate_route_distance (baseline_route_indices n) distances * 100
      else 0
    time_saved_percentage :=
      if 0 < _calculate_route_duration (baseline_route_indices n) durations then
        (_calculate_route_duration (baseline_route_indices n) durations -
            _calculate_route_duration r durations) /
          _calculate_route_duration (baseline_route_indices n) durations * 100
      else 0 }

/-- A 3-stop distance matrix under which the cheapest tour from depot 0
runs 0, 2, 1, 0. -/
def skewDistances : ℕ → ℕ → ℚ := fun i j =>
  if i = 0 ∧ j = 1 then 10 else if i = 1 ∧ j = 2 then 10
  else if i = 2 ∧ j = 0 then 10 else if i = 0 ∧ j = 2 then 1
  else if i = 2 ∧ j = 1 then 1 else if i = 1 ∧ j = 0 then 1 else 0

/-- A 3-stop duration matrix under which the sequential order 0, 1, 2, 0
is much faster than the distance-cheapest tour 0, 2, 1, 0. -/
def skewDurations : ℕ → ℕ → ℚ := fun i j =>
  if i = 0 ∧ j = 1 then 1 else if i = 1 ∧ j = 2 then 1
  else if i = 2 ∧ j = 0 then 1 else if i = 0 ∧ j = 2 then 100
  else if i = 2 ∧ j = 1 then 100 else if i = 1 ∧ j = 0 then 100 else 0

/-- A 3-stop distance matrix with cheap forward arcs: the sequential tour
0, 1, 2, 0 costs 3 while the reverse tour 0, 2, 1, 0 costs 300. -/
def seqDistances : ℕ → ℕ → ℚ := fun i j =>
  if i = 0 ∧ j = 1 then 1 else if i = 1 ∧ j = 2 then 1
  else if i = 2 ∧ j = 0 then 1 else if i = j then 0 else 100

/-! ## Lemmas about route costs and the solver model -/

theorem calculate_route_distance_split (M : ℕ → ℕ → ℚ) (a : ℕ) :
    ∀ l₁ l₂ : List ℕ,
      _calculate_route_distance (l₁ ++ a :: l₂) M =
        _calculate_route_distance (l₁ ++ [a]) M + _calculate_route_distance (a :: l₂) M := by
  intro l₁ l₂
  induction l₁ with
  | nil => simp [_calculate_route_distance]
  | cons c l₁ ih =>
    cases l₁ with
    | nil => simp [_calculate_route_distance]
    | cons x xs =>
      simp only [List.cons_append, _calculate_route_distance, List.append_eq] at ih ⊢
      rw [ih]
      ring

theorem objective_cost_le_distance (M : ℕ → ℕ → ℚ) (n : ℕ)
    (hM : ∀ i j, i < n → j < n → 0 ≤ M i j) :
    ∀ l : List ℕ, (∀ x ∈ l, x < n) →
      ((objective_cost M l : ℤ) : ℚ) ≤ _calculate_route_distance l M := by
  intro l hl
  induction l with
  | nil => simp [objective_cost, _calculate_route_distance]
  | cons a l ih =>
    cases l with
    | nil => simp [objective_cost, _calculate_route_distance]
    | cons b rest =>
      have ha : a < n := hl a (by simp)
      have hb : b < n := hl b (by simp)
      have hab : 0 ≤ M a b := hM a b ha hb
      have h1 : ((pyInt (M a b) : ℤ) : ℚ) ≤ M a b := by
        rw [pyInt, if_pos hab]
        exact Int.floor_le (M a b)
      have h2 := ih (fun x hx => hl x (List.mem_cons_of_mem a hx))
      simp only [objective_cost, _calculate_route_distance]
      push_cast
      push_cast at h2
      linarith

theorem objective_cost_nonneg (M : ℕ → ℕ → ℚ) (n : ℕ)
    (hM : ∀ i j, i < n → j < n → 0 ≤ M i j) :
    ∀ l : List ℕ, (∀ x ∈ l, x < n) → 0 ≤ objective_cost M l := by
  intro l hl
  induction l with
  | nil => simp [objective_cost]
  | cons a l ih =>
    cases l with
    | nil => simp [objective_cost]
    | cons b rest =>
      have hab : 0 ≤ M a b := hM a b (hl a (by simp)) (hl b (by simp))
      have h1 : 0 ≤ pyInt (M a b) := by
        rw [pyInt, if_pos hab]
        exact Int.floor_nonneg.mpr hab
      have h2 := ih (fun x hx => hl x (List.mem_cons_of_mem a hx))
      simp only [objective_cost]
      omega

theorem calculate_route_duration_nonneg (T : ℕ → ℕ → ℚ) (n : ℕ)
    (hT : ∀ i j, i < n → j < n → 0 ≤ T i j) :
    ∀ l : List ℕ, (∀ x ∈ l, x < n) → 0 ≤ _calculate_route_duration l T := by
  intro l hl
  induction l with
  | nil => simp [_calculate_route_duration]
  | cons a l ih =>
    cases l with
    | nil => simp [_calculate_route_duration]
    | cons b rest =>
      have hab : 0 ≤ T a b := hT a b (hl a (by simp)) (hl b (by simp))
      have h2 := ih (fun x hx => hl x (List.mem_cons_of_mem a hx))
      simp only [_calculate_route_duration]
      linarith

theorem mem_drop_range {n d x : ℕ} :
    x ∈ (List.range n).drop d ↔ d ≤ x ∧ x < n := by
  constructor
  · intro hx
    rcases List.mem_iff_getElem.mp hx with ⟨i, hi, hxi⟩
    have hlen : ((List.range n).drop d).length = n - d := by simp
    have hdi : d + i < n := by omega
    have : ((List.range n).drop d)[i] = d + i := by
      rw [List.getElem_drop]
      simp
    omega
  · intro ⟨hdx, hxn⟩
    have hlen : ((List.range n).drop d).length = n - d := by simp
    refine List.mem_iff_getElem.mpr ⟨x - d, by omega, ?_⟩
    rw [List.getElem_drop]
    simp
    omega

theorem filter_range_ne {n d : ℕ} (hd : d < n) :
    (List.range n).filter (fun i => i != d) =
      (List.range n).take d ++ (List.range n).drop (d + 1) := by
  conv_lhs => rw [← List.take_append_drop d (List.range n)]
  have hdrop : (List.range n).drop d = d :: (List.range n).drop (d + 1) := by
    rw [List.drop_eq_getElem_cons (by simpa using hd)]
    simp
  rw [hdrop, List.filter_append]
  congr 1
  · apply List.filter_eq_self.mpr
    intro a ha
    have : a < d ⊓ n := by
      have := List.take_range d n ▸ ha
      simpa [List.mem_range] using this
    simp only [bne_iff_ne, ne_eq, decide_eq_true_eq]
    omega
  · rw [List.filter_cons]
    simp only [bne_self_eq_false, if_neg]
    have : ∀ a ∈ (List.range n).drop (d + 1), (a != d) = true := by
      intro a ha
      have := mem_drop_range.mp ha
      simp only [bne_iff_ne, ne_eq]
      omega
    simp [List.filter_eq_self.mpr this]

theorem tourCandidates_shape {n depot : ℕ} {r : List ℕ} (hd : depot < n)
    (hr : r ∈ tourCandidates n depot) :
    ∃ p, p.Perm ((List.range n).take depot ++ (List.range n).drop (depot + 1)) ∧
      r = depot :: (p ++ [depot]) := by
  rcases List.mem_map.mp hr with ⟨p, hp, hpr⟩
  refine ⟨p, ?_, hpr.symm⟩
  have := List.mem_permutations'.mp hp
  rwa [filter_range_ne hd] at this

theorem tourCandidates_mem_bound {n depot : ℕ} {r : List ℕ} (hd : depot < n)
    (hr : r ∈ tourCandidates n depot) :
    ∀ x ∈ r, x < n := by
  rcases tourCandidates_shape hd hr with ⟨p, hperm, rfl⟩
  intro x hx
  rcases List.mem_cons.mp hx with h | h
  · omega
  rcases List.mem_append.mp h with h | h
  · have := hperm.mem_iff.mp h
    rcases List.mem_append.mp this with h' | h'
    · have : x ∈ List.range n := List.mem_of_mem_take h'
      simpa [List.mem_range] using this
    · exact (mem_drop_range.mp h').2
  · have : x = depot := by simpa using h
    omega

theorem range_decomp {n depot : ℕ} (hd : depot < n) :
    List.range n = (List.range n).take depot ++ depot :: (List.range n).drop (depot + 1) := by
  conv_lhs => rw [← List.take_append_drop depot (List.range n)]
  congr 1
  rw [List.drop_eq_getElem_cons (by simpa using hd)]
  simp

theorem baseline_tour_in_candidates {n depot : ℕ} (hd : depot < n) :
    depot :: (((List.range n).drop (depot + 1) ++ (List.range n).take depot) ++ [depot]) ∈
      tourCandidates n depot := by
  apply List.mem_map.mpr
  refine ⟨(List.range n).drop (depot + 1) ++ (List.range n).take depot, ?_, rfl⟩
  rw [List.mem_permutations', filter_range_ne hd]
  exact List.perm_append_comm

theorem baseline_tour_cost (M : ℕ → ℕ → ℚ) {n depot : ℕ} (hd : depot < n) :
    _calculate_route_distance
        (depot :: (((List.range n).drop (depot + 1) ++ (List.range n).take depot) ++ [depot])) M =
      _calculate_route_distance (baseline_route_indices n) M := by
  have hA : (List.range n).take depot = List.range depot := by
    rw [List.take_range]
    congr 1
    omega
  cases depot with
  | zero =>
    have h0 : List.range n = 0 :: (List.range n).drop 1 := by
      have := range_decomp hd
      simpa using this
    rw [baseline_route_indices]
    conv_rhs => rw [h0]
    simp
  | succ e =>
    have hA2 : (List.range n).take (e + 1) = 0 :: List.map Nat.succ (List.range e) := by
      rw [hA, List.range_succ_eq_map]
    have h1 : (e + 1) :: (((List.range n).drop (e + 2) ++ (List.range n).take (e + 1)) ++ [e + 1]) =
        ((e + 1) :: (List.range n).drop (e + 2)) ++
          0 :: (List.map Nat.succ (List.range e) ++ [e + 1]) := by
      rw [hA2]
      simp
    have h2 : baseline_route_indices n =
        (0 :: List.map Nat.succ (List.range e)) ++
          (e + 1) :: ((List.range n).drop (e + 2) ++ [0]) := by
      rw [baseline_route_indices]
      conv_lhs => rw [range_decomp hd, hA2]
      simp
    rw [h1, h2,
      calculate_route_distance_split M 0 ((e + 1) :: (List.range n).drop (e + 2))
        (List.map Nat.succ (List.range e) ++ [e + 1]),
      calculate_route_distance_split M (e + 1) (0 :: List.map Nat.succ (List.range e))
        ((List.range n).drop (e + 2) ++ [0])]
    have h3 : ((e + 1) :: (List.range n).drop (e + 2)) ++ [0] =
        (e + 1) :: ((List.range n).drop (e + 2) ++ [0]) := by
      simp
    have h4 : (0 :: List.map Nat.succ (List.range e)) ++ [e + 1] =
        0 :: (List.map Nat.succ (List.range e) ++ [e + 1]) := by
      simp
    rw [h3, h4]
    ring

theorem solve_eq_some {n depot : ℕ} {M : ℕ → ℕ → ℚ} {r : List ℕ} {c : ℤ}
    (hs : ORToolsVRPSolver.solve n depot M = some (r, c)) :
    r ∈ tourCandidates n depot ∧ c = objective_cost M r := by
  unfold ORToolsVRPSolver.solve at hs
  rcases Option.map_eq_some'.mp hs with ⟨r', hr', heq⟩
  have h1 : r' = r := (Prod.mk.injEq _ _ _ _ ▸ heq).1
  have h2 : objective_cost M r' = c := (Prod.mk.injEq _ _ _ _ ▸ heq).2
  subst h1
  exact ⟨List.argmin_mem hr', h2.symm⟩

theorem solve_mayReturn {n depot : ℕ} {M : ℕ → ℕ → ℚ} {r : List ℕ} {c : ℤ}
    (hs : ORToolsVRPSolver.solve n depot M = some (r, c)) :
    ORToolsVRPSolver.mayReturn n depot M r c :=
  solve_eq_some hs

theorem optimize_route_eq_assemble (n depot : ℕ) (distances durations : ℕ → ℕ → ℚ) :
    optimize_route n depot distances durations =
      (ORToolsVRPSolver.solve n depot distances).map
        (fun rc => assemble_metrics n distances durations rc.1 rc.2) := rfl

theorem filter_range_length {n depot : ℕ} (hd : depot < n) :
    (((List.range n).take depot).length + ((List.range n).drop (depot + 1)).length) = n - 1 := by
  simp only [List.length_take, List.length_drop, List.length_range]
  omega

theorem tour_shape {n depot : ℕ} {r : List ℕ} (hd : depot < n)
    (hr : r ∈ tourCandidates n depot) :
    r.length = n + 1 ∧ r.head? = some depot ∧ r.getLast? = some depot ∧
      ∀ i, i < n → i ≠ depot → r.count i = 1 := by
  rcases tourCandidates_shape hd hr with ⟨p, hperm, rfl⟩
  have hplen : p.length = n - 1 := by
    rw [hperm.length_eq, List.length_append, filter_range_length hd]
  refine ⟨?_, rfl, ?_, ?_⟩
  · simp only [List.length_cons, List.length_append, hplen, List.length_nil]
    omega
  · have : depot :: (p ++ [depot]) = (depot :: p) ++ [depot] := by simp
    rw [this, List.getLast?_concat]
  · intro i hi hne
    have hnd : (((List.range n).take depot) ++ ((List.range n).drop (depot + 1))).Nodup := by
      rw [← filter_range_ne hd]
      exact (List.nodup_range n).filter _
    have hmem : i ∈ ((List.range n).take depot) ++ ((List.range n).drop (depot + 1)) := by
      rw [← filter_range_ne hd]
      apply List.mem_filter.mpr
      refine ⟨List.mem_range.mpr hi, ?_⟩
      simpa using hne
    have hcount : ((List.range n).take depot ++ (List.range n).drop (depot + 1)).count i = 1 :=
      List.count_eq_one_of_mem hnd hmem
    have hpcount : p.count i = 1 := by
      rw [hperm.count_eq i]
      exact hcount
    rw [List.count_cons, List.count_append, hpcount]
    simp [List.count_cons, Ne.symm hne]

/-! ## Claim theorems -/

/-- C1 counterexample: the solver contract does not bound the reported
cost by the baseline.  Over 3 stops with forward arcs of cost 1 and
backward arcs of cost 100, the feasible tour 0, 2, 1, 0 with reported
cost 300 is an output the OR-Tools contract allows, while the baseline
sequential route 0, 1, 2, 0 costs 3; the reported cost exceeds the
baseline. -/
theorem feasible_tour_can_exceed_baseline :
    ORToolsVRPSolver.mayReturn 3 0 seqDistances [0, 2, 1, 0] 300 ∧
      _calculate_route_distance (baseline_route_indices 3) seqDistances = 3 ∧
      ¬(((300 : ℤ) : ℚ) ≤ _calculate_route_distance (baseline_route_indices 3) seqDistances) := by
  have hb : baseline_route_indices 3 = [0, 1, 2, 0] := by decide
  have hbt : _calculate_route_distance [0, 1, 2, 0] seqDistances = 3 := by
    norm_num [_calculate_route_distance, seqDistances]
  refine ⟨⟨by decide, by decide⟩, ?_, ?_⟩
  · rw [hb, hbt]
  · rw [hb, hbt]
    norm_num

/-- C1 (amended): the reported total cost is at most the baseline
sequential route's cost whenever the tour the solver returns has minimum
objective among the feasible tours -- which the heuristic search aims for
but does not guarantee within its time limit.  The minimum itself never
exceeds the baseline, because the baseline cycle rotated to start at the
depot is a feasible tour of equal cost; without the minimality hypothesis
the bound can fail (feasible_tour_can_exceed_baseline). -/
theorem optimized_cost_le_baseline_of_minimal (n depot : ℕ) (M : ℕ → ℕ → ℚ)
    (r : List ℕ) (c : ℤ) (hn : 2 ≤ n) (hd : depot < n)
    (hM : ∀ i j, i < n → j < n → 0 ≤ M i j)
    (hr : ORToolsVRPSolver.mayReturn n depot M r c)
    (hmin : ∀ r' c', ORToolsVRPSolver.mayReturn n depot M r' c' → c ≤ c') :
    ((c : ℤ) : ℚ) ≤ _calculate_route_distance (baseline_route_indices n) M := by
  have hbt := baseline_tour_in_candidates hd
  have hle : c ≤ objective_cost M
      (depot :: (((List.range n).drop (depot + 1) ++ (List.range n).take depot) ++ [depot])) :=
    hmin _ _ ⟨hbt, rfl⟩
  have hbound := tourCandidates_mem_bound hd hbt
  have hcast : ((objective_cost M
      (depot :: (((List.range n).drop (depot + 1) ++ (List.range n).take depot) ++ [depot])) : ℤ) : ℚ)
      ≤ _calculate_route_distance
        (depot :: (((List.range n).drop (depot + 1) ++ (List.range n).take depot) ++ [depot])) M :=
    objective_cost_le_distance M n hM _ hbound
  rw [baseline_tour_cost M hd] at hcast
  have h2 : ((c : ℤ) : ℚ) ≤ ((objective_cost M
      (depot :: (((List.range n).drop (depot + 1) ++ (List.range n).take depot) ++ [depot])) : ℤ) : ℚ) := by
    exact_mod_cast hle
  linarith

/-- Witness for C1 (amended): the two-stop scenario with all cross
distances 2000; the only feasible tour is 0, 1, 0 with cost 4000, so it
is trivially minimal, and 4000 is at most the baseline cost 4000. -/
theorem optimized_cost_le_baseline_of_minimal_witness :
    (((4000 : ℤ) : ℚ)) ≤ _calculate_route_distance (baseline_route_indices 2)
      (fun i j => if i = j then 0 else 2000) :=
  optimized_cost_le_baseline_of_minimal 2 0 (fun i j => if i = j then 0 else 2000)
    [0, 1, 0] 4000 (by norm_num) (by norm_num)
    (by
      intro i j _ _
      dsimp only
      split <;> norm_num)
    ⟨by decide, by decide⟩
    (by
      intro r' c' hrc
      obtain ⟨hr', hc'⟩ := hrc
      have hcand : tourCandidates 2 0 = [[0, 1, 0]] := by decide
      rw [hcand, List.mem_singleton] at hr'
      subst hr'
      rw [hc']
      decide)

/-- C2: for every square distance matrix over n stops with n at least 2
and depot index depot below n, whenever the solver returns a route, the
visiting order has length n plus 1, starts and ends at depot, and
contains every non-depot index exactly once. -/
theorem solve_route_shape (n depot : ℕ) (M : ℕ → ℕ → ℚ) (r : List ℕ) (c : ℤ)
    (hn : 2 ≤ n) (hd : depot < n)
    (hs : ORToolsVRPSolver.solve n depot M = some (r, c)) :
    r.length = n + 1 ∧ r.head? = some depot ∧ r.getLast? = some depot ∧
      ∀ i, i < n → i ≠ depot → r.count i = 1 :=
  tour_shape hd (solve_eq_some hs).1

/-- Witness for C2: three stops, depot 1, unit distances; the returned
route is 1, 0, 2, 1. -/
theorem solve_route_shape_witness :
    ([1, 0, 2, 1] : List ℕ).length = 3 + 1 ∧
      ([1, 0, 2, 1] : List ℕ).head? = some 1 ∧
      ([1, 0, 2, 1] : List ℕ).getLast? = some 1 ∧
      ∀ i, i < 3 → i ≠ 1 → ([1, 0, 2, 1] : List ℕ).count i = 1 :=
  solve_route_shape 3 1 (fun _ _ => 1) [1, 0, 2, 1] 3
    (by norm_num) (by norm_num) (by decide)

/-- C3 evaluation: with 3 stops the baseline route built by optimize_route
is 0, 1, 2, 0; it starts and ends at input position 0, so for any chosen
depot index other than 0 (for instance depot index 1) the baseline is not
depot-relative. -/
theorem baseline_route_ignores_depot :
    baseline_route_indices 3 = [0, 1, 2, 0] ∧
      (baseline_route_indices 3).head? = some 0 ∧
      (baseline_route_indices 3).getLast? = some 0 := by
  decide

/-- C5 evaluation: the boulevard rule never fires, because the raw pattern
in the source swallows its leading letter b; the two addresses Main
Boulevard and Main Blvd, which differ only in the listed word versus its
abbreviation, normalize to different cache keys. -/
theorem boulevard_pair_not_unified :
    _normalize_address "Main Boulevard".toList = "main boulevard".toList ∧
      _normalize_address "Main Blvd".toList = "main blvd".toList ∧
      _normalize_address "Main Boulevard".toList ≠ _normalize_address "Main Blvd".toList := by
  decide

/-- C8 (amended): get_distance_matrix succeeds exactly when there are at
least 2 locations, both matrices are nonempty, and each has exactly n
rows; on success the matrices are returned unchanged (never truncated or
padded).  Row widths are not validated. -/
theorem get_distance_matrix_row_validation (n : ℕ)
    (distances durations : List (List ℚ)) :
    (get_distance_matrix n distances durations = Except.ok (distances, durations) ↔
      (2 ≤ n ∧ distances ≠ [] ∧ durations ≠ [] ∧
        distances.length = n ∧ durations.length = n)) ∧
    ∀ res, get_distance_matrix n distances durations = Except.ok res →
      res = (distances, durations) := by
  constructor
  · constructor
    · intro h
      unfold get_distance_matrix at h
      by_cases h1 : n < 2
      · rw [if_pos h1] at h
        exact Except.noConfusion h
      rw [if_neg h1] at h
      by_cases h2 : distances = [] ∨ durations = []
      · rw [if_pos h2] at h
        exact Except.noConfusion h
      rw [if_neg h2] at h
      by_cases h3 : distances.length ≠ n ∨ durations.length ≠ n
      · rw [if_pos h3] at h
        exact Except.noConfusion h
      push_neg at h2 h3
      exact ⟨by omega, h2.1, h2.2, h3.1, h3.2⟩
    · rintro ⟨ha, hb, hc, hd, he⟩
      unfold get_distance_matrix
      rw [if_neg (by omega), if_neg (by tauto), if_neg (by tauto)]
  · intro res h
    unfold get_distance_matrix at h
    by_cases h1 : n < 2
    · rw [if_pos h1] at h
      exact Except.noConfusion h
    rw [if_neg h1] at h
    by_cases h2 : distances = [] ∨ durations = []
    · rw [if_pos h2] at h
      exact Except.noConfusion h
    rw [if_neg h2] at h
    by_cases h3 : distances.length ≠ n ∨ durations.length ≠ n
    · rw [if_pos h3] at h
      exact Except.noConfusion h
    rw [if_neg h3] at h
    injection h with h
    exact h.symm

/-- C8 counterexample: with 2 locations, a distances matrix whose two rows
have the wrong width is accepted unchanged, because only the number of
rows is compared against n. -/
theorem get_distance_matrix_ragged_accepted :
    get_distance_matrix 2 [[0], [0]] [[0, 0], [0, 0]] =
      Except.ok ([[0], [0]], [[0, 0], [0, 0]]) ∧
      ([[(0 : ℚ)], [0]].headI).length ≠ 2 := by
  exact ⟨rfl, by decide⟩

/-- C10: for an empty or whitespace-only address, geocode_address yields
the base GeocodingError (not the NotFound, Timeout or ServiceError
variants) with no effects at all: the cache is not consulted, the rate
limiter is not touched, and no network request is made. -/
theorem geocode_address_empty_rejected (address : List Char)
    (cache_enabled : Bool) (cache : GeocodingCache) (now : ℚ)
    (provider_outcome : GeoOutcome) (h : stripEnds address = []) :
    geocode_address address cache_enabled cache now provider_outcome =
      (GeoOutcome.errGeneric, []) := by
  unfold geocode_address
  rw [if_pos h]

/-- Witness for C10: a whitespace-only address with a configured cache and
a provider stage that would report not-found is rejected with the generic
error and an empty effect trace. -/
theorem geocode_address_empty_rejected_witness :
    geocode_address "   ".toList true (GeocodingCache.mk [] 0 0 10 5) 0
      GeoOutcome.errNotFound = (GeoOutcome.errGeneric, []) :=
  geocode_address_empty_rejected "   ".toList true (GeocodingCache.mk [] 0 0 10 5) 0
    GeoOutcome.errNotFound (by decide)

/-- C7 counterexample: the roundtrip does not hold for every non-empty
address.  An address consisting of one space is non-empty, yet with
capacity 10 and a read well inside the ttl window the get answers None:
set's early return fires because the address strips to empty, so nothing
is stored (the cache is returned unchanged), and get's own early return
answers None -- no eviction or expiry is involved at all. -/
theorem cache_blank_address_roundtrip_fails :
    (" ".toList : List Char) ≠ [] ∧
      1 ≤ (GeocodingCache.mk [] 0 0 10 5).maxsize ∧
      (1 : ℚ) < 0 + (GeocodingCache.mk [] 0 0 10 5).ttl ∧
      (GeocodingCache.mk [] 0 0 10 5).set " ".toList 1 2 0 =
        GeocodingCache.mk [] 0 0 10 5 ∧
      (((GeocodingCache.mk [] 0 0 10 5).set " ".toList 1 2 0).get " ".toList 1).1 =
        none := by
  refine ⟨by decide, by decide, by norm_num, rfl, rfl⟩

/-- C7 (amended): after set with an address that is still non-empty once
whitespace is stripped, an immediate get of the same address within the
ttl window and with capacity at least 1 (so the fresh entry survives the
eviction pass) returns the stored coordinates; a non-empty but
whitespace-only address is ignored by set and answered None by get
(cache_blank_address_roundtrip_fails). -/
theorem cache_set_get_roundtrip (c : GeocodingCache) (address : List Char)
    (lat lon t0 t1 : ℚ) (hne : stripEnds address ≠ []) (hcap : 1 ≤ c.maxsize)
    (hfresh : t1 < t0 + c.ttl) :
    ((c.set address lat lon t0).get address t1).1 = some (lat, lon) := by
  obtain ⟨m, hm⟩ : ∃ m, c.maxsize = m + 1 := ⟨c.maxsize - 1, by omega⟩
  unfold GeocodingCache.set GeocodingCache.get GeocodingCache.lookup
  rw [if_neg hne]
  simp only [hm, List.take_succ_cons, if_neg hne]
  rw [List.find?_cons_of_pos _ (by simp)]
  simp only
  rw [if_pos hfresh]

/-- Witness for C7: storing coordinates (1, 2) for the address a at time 0
in an empty cache of capacity 10 with ttl 5 and reading it back at time 3
yields (1, 2). -/
theorem cache_set_get_roundtrip_witness :
    (((GeocodingCache.mk [] 0 0 10 5).set "a".toList 1 2 0).get "a".toList 3).1 =
      some (1, 2) :=
  cache_set_get_roundtrip (GeocodingCache.mk [] 0 0 10 5) "a".toList 1 2 0 3
    (by decide) (by norm_num) (by norm_num)

/-- C9 (amended): a get with an address that is non-blank after stripping
increments exactly one of the two counters, so their sum grows by exactly
one; a get with an empty or whitespace-only address returns early and
leaves the whole cache state unchanged; no get ever decreases either
counter. -/
theorem cache_get_counter_discipline (c : GeocodingCache) (address : List Char)
    (now : ℚ) :
    (stripEnds address ≠ [] →
      (c.get address now).2.hits + (c.get address now).2.misses =
        c.hits + c.misses + 1) ∧
    (stripEnds address = [] → (c.get address now).2 = c) ∧
    c.hits ≤ (c.get address now).2.hits ∧
    c.misses ≤ (c.get address now).2.misses := by
  unfold GeocodingCache.get
  by_cases h : stripEnds address = []
  · simp [h]
  · rcases hl : c.lookup (_normalize_address address) now with _ | v <;>
      simp [h, hl] <;> omega

/-- Witness for C9: a get with address a on an empty cache increments the
counter sum from 0 to 1. -/
theorem cache_get_counter_discipline_witness :
    (((GeocodingCache.mk [] 0 0 10 5).get "a".toList 0).2.hits +
        ((GeocodingCache.mk [] 0 0 10 5).get "a".toList 0).2.misses =
      (GeocodingCache.mk [] 0 0 10 5).hits + (GeocodingCache.mk [] 0 0 10 5).misses + 1) :=
  (cache_get_counter_discipline (GeocodingCache.mk [] 0 0 10 5) "a".toList 0).1
    (by decide)

/-- C9 counterexample: a get with the empty address leaves both counters
untouched, so the sum of hits and misses does not increase by one. -/
theorem cache_get_empty_address_no_count :
    ((GeocodingCache.mk [] 0 0 10 5).get [] 0).2.hits +
        ((GeocodingCache.mk [] 0 0 10 5).get [] 0).2.misses ≠
      (GeocodingCache.mk [] 0 0 10 5).hits + (GeocodingCache.mk [] 0 0 10 5).misses + 1 := by
  decide

/-- C4 (amended): for nonnegative matrices, whichever feasible tour the
solver returns, the metrics assembled from it satisfy: each savings
percentage is at most 100 whenever its baseline total is positive, and
exactly 0 when its baseline total is 0.  Neither percentage is bounded
below by 0: the time percentage can be negative because the solver
minimizes distance and not duration, and the distance percentage can be
negative because the solver does not guarantee the returned tour costs
no more than the sequential baseline. -/
theorem savings_percentage_caps (n depot : ℕ) (D T : ℕ → ℕ → ℚ)
    (r : List ℕ) (c : ℤ) (hn : 2 ≤ n) (hd : depot < n)
    (hD : ∀ i j, i < n → j < n → 0 ≤ D i j)
    (hT : ∀ i j, i < n → j < n → 0 ≤ T i j)
    (hr : ORToolsVRPSolver.mayReturn n depot D r c) :
    (0 < (assemble_metrics n D T r c).baseline_distance →
      (assemble_metrics n D T r c).distance_saved_percentage ≤ 100) ∧
    ((assemble_metrics n D T r c).baseline_distance = 0 →
      (assemble_metrics n D T r c).distance_saved_percentage = 0) ∧
    (0 < (assemble_metrics n D T r c).baseline_duration →
      (assemble_metrics n D T r c).time_saved_percentage ≤ 100) ∧
    ((assemble_metrics n D T r c).baseline_duration = 0 →
      (assemble_metrics n D T r c).time_saved_percentage = 0) := by
  obtain ⟨hmem, hc⟩ := hr
  have hbound := tourCandidates_mem_bound hd hmem
  have hc_nn : 0 ≤ c := by
    rw [hc]
    exact objective_cost_nonneg D n hD r hbound
  have hdur_nn := calculate_route_duration_nonneg T n hT r hbound
  simp only [assemble_metrics]
  refine ⟨fun hbD => ?_, fun hbD => ?_, fun hbT => ?_, fun hbT => ?_⟩
  · rw [if_pos hbD]
    have h1 : (_calculate_route_distance (baseline_route_indices n) D - (c : ℚ)) /
        _calculate_route_distance (baseline_route_indices n) D ≤ 1 := by
      rw [div_le_one hbD]
      have : (0 : ℚ) ≤ (c : ℚ) := by exact_mod_cast hc_nn
      linarith
    linarith
  · rw [if_neg (by rw [hbD]; exact lt_irrefl 0)]
  · rw [if_pos hbT]
    have h1 : (_calculate_route_duration (baseline_route_indices n) T -
        _calculate_route_duration r T) /
        _calculate_route_duration (baseline_route_indices n) T ≤ 1 := by
      rw [div_le_one hbT]
      linarith
    linarith
  · rw [if_neg (by rw [hbT]; exact lt_irrefl 0)]

/-- C4 counterexample: with the skew matrices the solver picks the
distance-cheapest tour 0, 2, 1, 0, whose duration is far worse than the
sequential baseline; the baseline duration is 3 (positive) and the time
savings percentage is -9900, outside the range 0 to 100. -/
theorem time_saved_percentage_negative :
    (optimize_route 3 0 skewDistances skewDurations).map
        OptimizationOutcome.baseline_duration = some 3 ∧
      (optimize_route 3 0 skewDistances skewDurations).map
        OptimizationOutcome.time_saved_percentage = some (-9900) ∧
      ¬((0 : ℚ) ≤ -9900) := by
  have hs : ORToolsVRPSolver.solve 3 0 skewDistances = some ([0, 2, 1, 0], 3) := by
    decide
  have hb : baseline_route_indices 3 = [0, 1, 2, 0] := by decide
  have hbt : _calculate_route_duration [0, 1, 2, 0] skewDurations = 3 := by
    norm_num [_calculate_route_duration, skewDurations]
  have hot : _calculate_route_duration [0, 2, 1, 0] skewDurations = 300 := by
    norm_num [_calculate_route_duration, skewDurations]
  unfold optimize_route
  rw [hs]
  simp only [Option.map_some']
  rw [hb]
  refine ⟨by simp [hbt], ?_, by norm_num⟩
  simp only [hbt, hot]
  norm_num

/-- Witness for C4 (amended): the symmetric two-stop instance with all
cross entries 2000 and its single feasible tour 0, 1, 0 with cost 4000
satisfies every clause. -/
theorem savings_percentage_caps_witness :
    (0 < (assemble_metrics 2 (fun i j => if i = j then (0 : ℚ) else 2000)
        (fun i j => if i = j then (0 : ℚ) else 2000) [0, 1, 0] 4000).baseline_distance →
      (assemble_metrics 2 (fun i j => if i = j then (0 : ℚ) else 2000)
        (fun i j => if i = j then (0 : ℚ) else 2000) [0, 1, 0] 4000).distance_saved_percentage ≤ 100) ∧
    ((assemble_metrics 2 (fun i j => if i = j then (0 : ℚ) else 2000)
        (fun i j => if i = j then (0 : ℚ) else 2000) [0, 1, 0] 4000).baseline_distance = 0 →
      (assemble_metrics 2 (fun i j => if i = j then (0 : ℚ) else 2000)
        (fun i j => if i = j then (0 : ℚ) else 2000) [0, 1, 0] 4000).distance_saved_percentage = 0) ∧
    (0 < (assemble_metrics 2 (fun i j => if i = j then (0 : ℚ) else 2000)
        (fun i j => if i = j then (0 : ℚ) else 2000) [0, 1, 0] 4000).baseline_duration →
      (assemble_metrics 2 (fun i j => if i = j then (0 : ℚ) else 2000)
        (fun i j => if i = j then (0 : ℚ) else 2000) [0, 1, 0] 4000).time_saved_percentage ≤ 100) ∧
    ((assemble_metrics 2 (fun i j => if i = j then (0 : ℚ) else 2000)
        (fun i j => if i = j then (0 : ℚ) else 2000) [0, 1, 0] 4000).baseline_duration = 0 →
      (assemble_metrics 2 (fun i j => if i = j then (0 : ℚ) else 2000)
        (fun i j => if i = j then (0 : ℚ) else 2000) [0, 1, 0] 4000).time_saved_percentage = 0) :=
  savings_percentage_caps 2 0
    (fun i j => if i = j then (0 : ℚ) else 2000)
    (fun i j => if i = j then (0 : ℚ) else 2000)
    [0, 1, 0] 4000
    (by norm_num) (by norm_num)
    (fun i j _ _ => by dsimp only; split <;> norm_num)
    (fun i j _ _ => by dsimp only; split <;> norm_num)
    ⟨by decide, by decide⟩

/-- Witness for C8 (amended): a well-shaped pair of 2-row matrices for 2
locations is accepted and returned unchanged. -/
theorem get_distance_matrix_row_validation_witness :
    get_distance_matrix 2 [[0, 0], [0, 0]] [[0, 0], [0, 0]] =
      Except.ok ([[0, 0], [0, 0]], [[0, 0], [0, 0]]) :=
  (get_distance_matrix_row_validation 2 [[0, 0], [0, 0]] [[0, 0], [0, 0]]).1.mpr
    ⟨by norm_num, by simp, by simp, by simp, by simp⟩

/-! ## Character lemmas for the normalization development -/

theorem char_toNat_ofNat {n : ℕ} (h : n < 55296) : (Char.ofNat n).toNat = n := by
  rw [Char.ofNat, dif_pos (Or.inl h)]
  rfl

theorem char_eq_of_toNat {a b : Char} (h : a.toNat = b.toNat) : a = b :=
  Char.ext (UInt32.ext h)

theorem pyLowerChar_toNat (c : Char) :
    (pyLowerChar c).toNat =
      if 65 ≤ c.toNat ∧ c.toNat ≤ 90 then c.toNat + 32 else c.toNat := by
  unfold pyLowerChar
  split_ifs with h
  · exact char_toNat_ofNat (by omega)
  · rfl

theorem pyLowerChar_idem (c : Char) : pyLowerChar (pyLowerChar c) = pyLowerChar c := by
  apply char_eq_of_toNat
  rw [pyLowerChar_toNat, pyLowerChar_toNat]
  split_ifs <;> omega

theorem pyLowerChar_eq_low {c d : Char} (hd : d.toNat < 65) (h : pyLowerChar c = d) :
    c = d := by
  have := congrArg Char.toNat h
  rw [pyLowerChar_toNat] at this
  split_ifs at this with hc
  · omega
  · exact char_eq_of_toNat this

theorem pyIsSpace_iff {c : Char} :
    pyIsSpace c = true ↔
      (c = ' ' ∨ c = '\t' ∨ c = '\n' ∨ c = '\r' ∨ c = '\x0b' ∨ c = '\x0c') := by
  simp only [pyIsSpace, Bool.or_eq_true, decide_eq_true_eq]
  tauto

theorem word_not_space {c : Char} (h : pyIsWordChar c = true) : pyIsSpace c = false := by
  by_contra hs
  have hs' : pyIsSpace c = true := by
    cases hps : pyIsSpace c
    · exact absurd hps hs
    · rfl
  rcases pyIsSpace_iff.mp hs' with rfl | rfl | rfl | rfl | rfl | rfl <;>
    exact absurd h (by decide)

/-! ## Chunk structure lemmas -/

theorem chunksAux_flatten :
    ∀ (rest : List Char) (k : Bool) (cur : List Char),
      (chunksAux k cur rest).flatten = cur.reverse ++ rest := by
  intro rest
  induction rest with
  | nil => intro k cur; simp [chunksAux]
  | cons c cs ih =>
    intro k cur
    unfold chunksAux
    split_ifs with h
    · rw [ih]
      simp
    · rw [List.flatten_cons, ih]
      simp

theorem chunks_flatten (s : List Char) : (chunks s).flatten = s := by
  cases s with
  | nil => rfl
  | cons c cs => rw [chunks, chunksAux_flatten]; rfl

theorem mem_of_mem_chunks {s t : List Char} {c : Char}
    (ht : t ∈ chunks s) (hc : c ∈ t) : c ∈ s := by
  rw [← chunks_flatten s]
  exact List.mem_flatten.mpr ⟨t, ht, hc⟩

theorem chunksAux_head_structure :
    ∀ (rest : List Char) (k : Bool) (cur : List Char),
      ∃ u L, chunksAux k cur rest = (cur.reverse ++ u) :: L := by
  intro rest
  induction rest with
  | nil => intro k cur; exact ⟨[], [], by simp [chunksAux]⟩
  | cons c cs ih =>
    intro k cur
    unfold chunksAux
    split_ifs with h
    · rcases ih k (c :: cur) with ⟨u, L, hu⟩
      refine ⟨c :: u, L, ?_⟩
      rw [hu]
      simp
    · exact ⟨[], chunksAux (pyIsWordChar c) [c] cs, by simp⟩

theorem headI_wordness_of_uniform {cur : List Char} {k : Bool} (h : cur ≠ [])
    (hu : ∀ c ∈ cur, pyIsWordChar c = k) :
    pyIsWordChar cur.reverse.headI = k := by
  have hrev : cur.reverse ≠ [] := by simpa using h
  obtain ⟨d, t', ht⟩ := List.exists_cons_of_ne_nil hrev
  rw [ht]
  have hd : d ∈ cur := by
    rw [← List.mem_reverse, ht]
    exact List.mem_cons_self d t'
  exact hu d hd

theorem chunksAux_valid :
    ∀ (rest : List Char) (k : Bool) (cur : List Char), cur ≠ [] →
      (∀ c ∈ cur, pyIsWordChar c = k) →
      (∀ t ∈ chunksAux k cur rest, t ≠ []) ∧
      (∀ t ∈ chunksAux k cur rest, ∀ c ∈ t, pyIsWordChar c = pyIsWordChar t.headI) ∧
      List.Chain' (fun a b => pyIsWordChar a.headI ≠ pyIsWordChar b.headI)
        (chunksAux k cur rest) ∧
      (∀ t, (chunksAux k cur rest).head? = some t → pyIsWordChar t.headI = k) := by
  intro rest
  induction rest with
  | nil =>
    intro k cur hcur hk
    refine ⟨?_, ?_, ?_, ?_⟩
    · intro t ht
      rw [chunksAux] at ht
      simp only [List.mem_singleton] at ht
      subst ht
      simpa using hcur
    · intro t ht c hc
      rw [chunksAux] at ht
      simp only [List.mem_singleton] at ht
      subst ht
      rw [headI_wordness_of_uniform hcur hk]
      exact hk c (List.mem_reverse.mp hc)
    · rw [chunksAux]
      exact List.chain'_singleton _
    · intro t ht
      rw [chunksAux] at ht
      simp only [List.head?_cons, Option.some.injEq] at ht
      subst ht
      exact headI_wordness_of_uniform hcur hk
  | cons c cs ih =>
    intro k cur hcur hk
    by_cases h : pyIsWordChar c = k
    · have hstep : chunksAux k cur (c :: cs) = chunksAux k (c :: cur) cs := by
        rw [chunksAux, if_pos h]
      rw [hstep]
      exact ih k (c :: cur) (by simp) (by
        intro x hx
        rcases List.mem_cons.mp hx with rfl | hx
        · exact h
        · exact hk x hx)
    · have hstep : chunksAux k cur (c :: cs) =
          cur.reverse :: chunksAux (pyIsWordChar c) [c] cs := by
        rw [chunksAux, if_neg h]
      rcases ih (pyIsWordChar c) [c] (by simp) (by simp) with ⟨ih1, ih2, ih3, ih4⟩
      rw [hstep]
      refine ⟨?_, ?_, ?_, ?_⟩
      · intro t ht
        rcases List.mem_cons.mp ht with rfl | ht
        · simpa using hcur
        · exact ih1 t ht
      · intro t ht x hx
        rcases List.mem_cons.mp ht with rfl | ht
        · rw [headI_wordness_of_uniform hcur hk]
          exact hk x (List.mem_reverse.mp hx)
        · exact ih2 t ht x hx
      · apply List.chain'_cons'.mpr
        refine ⟨?_, ih3⟩
        intro t ht
        rw [headI_wordness_of_uniform hcur hk, ih4 t ht]
        exact fun heq => h heq.symm
      · intro t ht
        simp only [List.head?_cons, Option.some.injEq] at ht
        subst ht
        exact headI_wordness_of_uniform hcur hk

theorem chunks_valid (s : List Char) :
    (∀ t ∈ chunks s, t ≠ []) ∧
    (∀ t ∈ chunks s, ∀ c ∈ t, pyIsWordChar c = pyIsWordChar t.headI) ∧
    List.Chain' (fun a b => pyIsWordChar a.headI ≠ pyIsWordChar b.headI) (chunks s) := by
  cases s with
  | nil => refine ⟨by simp [chunks], by simp [chunks], by simp [chunks]⟩
  | cons c cs =>
    rcases chunksAux_valid cs (pyIsWordChar c) [c] (by simp) (by simp) with ⟨h1, h2, h3, _⟩
    exact ⟨h1, h2, h3⟩

theorem chunksAux_append_run :
    ∀ (t rest : List Char) (k : Bool) (cur : List Char),
      (∀ c ∈ t, pyIsWordChar c = k) →
      chunksAux k cur (t ++ rest) = chunksAux k (t.reverse ++ cur) rest := by
  intro t
  induction t with
  | nil => intro rest k cur _; simp
  | cons c t' ih =>
    intro rest k cur hT
    have hc : pyIsWordChar c = k := hT c (List.mem_cons_self c t')
    rw [List.cons_append, chunksAux, if_pos hc,
      ih rest k (c :: cur) (fun x hx => hT x (List.mem_cons_of_mem c hx))]
    congr 1
    simp

theorem chunks_flatten_of_valid :
    ∀ (L : List (List Char)), (∀ t ∈ L, t ≠ []) →
      (∀ t ∈ L, ∀ c ∈ t, pyIsWordChar c = pyIsWordChar t.headI) →
      List.Chain' (fun a b => pyIsWordChar a.headI ≠ pyIsWordChar b.headI) L →
      chunks L.flatten = L := by
  intro L
  induction L with
  | nil => intro _ _ _; rfl
  | cons t L' ih =>
    intro h1 h2 h3
    obtain ⟨c, t'', rfl⟩ := List.exists_cons_of_ne_nil (h1 _ (List.mem_cons_self _ _))
    have hT : ∀ x ∈ t'', pyIsWordChar x = pyIsWordChar c := by
      intro x hx
      have := h2 _ (List.mem_cons_self _ _) x (List.mem_cons_of_mem c hx)
      simpa using this
    rw [List.flatten_cons, List.cons_append, chunks,
      chunksAux_append_run t'' L'.flatten (pyIsWordChar c) [c] hT]
    cases L' with
    | nil =>
      rw [List.flatten_nil, chunksAux]
      simp
    | cons u L'' =>
      obtain ⟨d, u', rfl⟩ :=
        List.exists_cons_of_ne_nil (h1 _ (List.mem_cons_of_mem _ (List.mem_cons_self _ _)))
      have hne : pyIsWordChar d ≠ pyIsWordChar c := by
        have hR := List.chain'_cons'.mp h3
        have := hR.1 (d :: u') rfl
        simpa using fun heq => this heq.symm
      rw [List.flatten_cons, List.cons_append, chunksAux, if_neg hne]
      have hrest : chunksAux (pyIsWordChar d) [d] (u' ++ L''.flatten) =
          chunks (((d :: u') :: L'').flatten) := by
        rw [List.flatten_cons, List.cons_append, chunks]
      rw [hrest, ih (fun x hx => h1 x (List.mem_cons_of_mem _ hx))
        (fun x hx => h2 x (List.mem_cons_of_mem _ hx)) (List.Chain'.tail h3)]
      congr 1
      simp

/-! ## Abbreviation table facts and substitution lemmas -/

theorem headI_mem {α : Type} [Inhabited α] {l : List α} (h : l ≠ []) : l.headI ∈ l := by
  obtain ⟨c, t, rfl⟩ := List.exists_cons_of_ne_nil h
  exact List.mem_cons_self c t

theorem abbrev_nonempty : ∀ wr ∈ abbreviations, wr.1 ≠ [] ∧ wr.2 ≠ [] := by decide

theorem abbrev_word_chars :
    ∀ wr ∈ abbreviations,
      (∀ c ∈ wr.1, pyIsWordChar c = true) ∧ (∀ c ∈ wr.2, pyIsWordChar c = true) := by
  decide

theorem abbrev_repl_chars :
    ∀ wr ∈ abbreviations,
      ∀ c ∈ wr.2, pyLowerChar c = c ∧ pyIsSpace c = false ∧ c ≠ ',' ∧ c ≠ '.' := by
  decide

theorem abbrev_repl_not_pattern :
    ∀ wr ∈ abbreviations, ∀ wq ∈ abbreviations, wr.2 ≠ wq.1 := by
  decide

theorem abbrev_fold_matched :
    ∀ wr ∈ abbreviations,
      abbreviations.foldl (fun acc p => replaceRun p.1 p.2 acc) wr.1 = wr.2 := by
  decide

theorem foldl_replaceRun_no_match :
    ∀ (ps : List (List Char × List Char)) (t : List Char),
      (∀ wr ∈ ps, t ≠ wr.1) →
      ps.foldl (fun acc p => replaceRun p.1 p.2 acc) t = t := by
  intro ps
  induction ps with
  | nil => intro t _; rfl
  | cons p ps' ih =>
    intro t h
    rw [List.foldl_cons]
    rw [show replaceRun p.1 p.2 t = t from
      if_neg (h p (List.mem_cons_self p ps'))]
    exact ih t (fun wr hwr => h wr (List.mem_cons_of_mem p hwr))

theorem foldl_replaceRun_cases (t : List Char) :
    (abbreviations.foldl (fun acc p => replaceRun p.1 p.2 acc) t = t ∧
      ∀ wr ∈ abbreviations, t ≠ wr.1) ∨
    ∃ wr ∈ abbreviations, t = wr.1 ∧
      abbreviations.foldl (fun acc p => replaceRun p.1 p.2 acc) t = wr.2 := by
  by_cases h : ∀ wr ∈ abbreviations, t ≠ wr.1
  · exact Or.inl ⟨foldl_replaceRun_no_match abbreviations t h, h⟩
  · right
    push_neg at h
    obtain ⟨wr, hwr, ht⟩ := h
    subst ht
    exact ⟨wr, hwr, rfl, abbrev_fold_matched wr hwr⟩

theorem foldl_replaceRun_mem :
    ∀ (ps : List (List Char × List Char)) (t : List Char) (c : Char),
      c ∈ ps.foldl (fun acc p => replaceRun p.1 p.2 acc) t →
      c ∈ t ∨ ∃ wr ∈ ps, c ∈ wr.2 := by
  intro ps
  induction ps with
  | nil => intro t c hc; exact Or.inl hc
  | cons p ps' ih =>
    intro t c hc
    rw [List.foldl_cons] at hc
    rcases ih (replaceRun p.1 p.2 t) c hc with hm | ⟨wr, hwr, hcw⟩
    · unfold replaceRun at hm
      split_ifs at hm with heq
      · exact Or.inr ⟨p, List.mem_cons_self p ps', hm⟩
      · exact Or.inl hm
    · exact Or.inr ⟨wr, List.mem_cons_of_mem p hwr, hcw⟩

theorem replaceRun_ne_nil {w r t : List Char} (hr : r ≠ []) (ht : t ≠ []) :
    replaceRun w r t ≠ [] := by
  unfold replaceRun
  split_ifs <;> assumption

theorem replaceRun_headI_wordness {w r : List Char}
    (hwn : w ≠ []) (hww : ∀ c ∈ w, pyIsWordChar c = true)
    (hrn : r ≠ []) (hrw : ∀ c ∈ r, pyIsWordChar c = true) (t : List Char) :
    pyIsWordChar (replaceRun w r t).headI = pyIsWordChar t.headI := by
  unfold replaceRun
  split_ifs with heq
  · subst heq
    rw [hww _ (headI_mem hwn), hrw _ (headI_mem hrn)]
  · rfl

theorem replaceRun_uniform {w r : List Char}
    (hww : ∀ c ∈ w, pyIsWordChar c = true)
    (hrn : r ≠ []) (hrw : ∀ c ∈ r, pyIsWordChar c = true) (t : List Char)
    (hu : ∀ c ∈ t, pyIsWordChar c = pyIsWordChar t.headI) :
    ∀ c ∈ replaceRun w r t, pyIsWordChar c = pyIsWordChar (replaceRun w r t).headI := by
  unfold replaceRun
  split_ifs with heq
  · intro c hc
    rw [hrw _ hc, hrw _ (headI_mem hrn)]
  · exact hu

theorem chunks_replaceWord {w r : List Char} (hwn : w ≠ [])
    (hww : ∀ c ∈ w, pyIsWordChar c = true) (hrn : r ≠ [])
    (hrw : ∀ c ∈ r, pyIsWordChar c = true) (s : List Char) :
    chunks (replaceWord w r s) = (chunks s).map (replaceRun w r) := by
  unfold replaceWord
  rcases chunks_valid s with ⟨h1, h2, h3⟩
  apply chunks_flatten_of_valid
  · intro t ht
    rcases List.mem_map.mp ht with ⟨t₀, ht₀, rfl⟩
    exact replaceRun_ne_nil hrn (h1 t₀ ht₀)
  · intro t ht
    rcases List.mem_map.mp ht with ⟨t₀, ht₀, rfl⟩
    exact replaceRun_uniform hww hrn hrw t₀ (h2 t₀ ht₀)
  · rw [List.chain'_map]
    apply List.Chain'.imp _ h3
    intro a b hab
    rw [replaceRun_headI_wordness hwn hww hrn hrw a,
      replaceRun_headI_wordness hwn hww hrn hrw b]
    exact hab

theorem foldl_replaceWord_eq :
    ∀ (ps : List (List Char × List Char)),
      (∀ wr ∈ ps, wr.1 ≠ [] ∧ wr.2 ≠ [] ∧
        (∀ c ∈ wr.1, pyIsWordChar c = true) ∧ (∀ c ∈ wr.2, pyIsWordChar c = true)) →
      ∀ s, ps.foldl (fun acc p => replaceWord p.1 p.2 acc) s =
        ((chunks s).map (fun t => ps.foldl (fun acc p => replaceRun p.1 p.2 acc) t)).flatten := by
  intro ps
  induction ps with
  | nil =>
    intro _ s
    simp only [List.foldl_nil]
    rw [List.map_id'' (fun _ => rfl)]
    exact (chunks_flatten s).symm
  | cons p ps' ih =>
    intro hv s
    have hp := hv p (List.mem_cons_self p ps')
    rw [List.foldl_cons, ih (fun wr hwr => hv wr (List.mem_cons_of_mem p hwr))
      (replaceWord p.1 p.2 s),
      chunks_replaceWord hp.1 hp.2.2.1 hp.2.1 hp.2.2.2 s, List.map_map]
    congr 1

theorem abbrev_valid :
    ∀ wr ∈ abbreviations, wr.1 ≠ [] ∧ wr.2 ≠ [] ∧
      (∀ c ∈ wr.1, pyIsWordChar c = true) ∧ (∀ c ∈ wr.2, pyIsWordChar c = true) :=
  fun wr hwr =>
    ⟨(abbrev_nonempty wr hwr).1, (abbrev_nonempty wr hwr).2,
      (abbrev_word_chars wr hwr).1, (abbrev_word_chars wr hwr).2⟩

theorem applyAbbrevs_eq (s : List Char) :
    applyAbbrevs s =
      ((chunks s).map
        (fun t => abbreviations.foldl (fun acc p => replaceRun p.1 p.2 acc) t)).flatten :=
  foldl_replaceWord_eq abbreviations abbrev_valid s

theorem foldAbbrev_ne_nil {t : List Char} (ht : t ≠ []) :
    abbreviations.foldl (fun acc p => replaceRun p.1 p.2 acc) t ≠ [] := by
  rcases foldl_replaceRun_cases t with ⟨heq, _⟩ | ⟨wr, hwr, _, heq⟩
  · rw [heq]; exact ht
  · rw [heq]; exact (abbrev_nonempty wr hwr).2

theorem foldAbbrev_headI_wordness (t : List Char) :
    pyIsWordChar ((abbreviations.foldl (fun acc p => replaceRun p.1 p.2 acc) t)).headI =
      pyIsWordChar t.headI := by
  rcases foldl_replaceRun_cases t with ⟨heq, _⟩ | ⟨wr, hwr, hteq, heq⟩
  · rw [heq]
  · rw [heq, hteq,
      (abbrev_word_chars wr hwr).2 _ (headI_mem (abbrev_nonempty wr hwr).2),
      (abbrev_word_chars wr hwr).1 _ (headI_mem (abbrev_nonempty wr hwr).1)]

theorem foldAbbrev_uniform {t : List Char}
    (hu : ∀ c ∈ t, pyIsWordChar c = pyIsWordChar t.headI) :
    ∀ c ∈ abbreviations.foldl (fun acc p => replaceRun p.1 p.2 acc) t,
      pyIsWordChar c =
        pyIsWordChar ((abbreviations.foldl (fun acc p => replaceRun p.1 p.2 acc) t)).headI := by
  rcases foldl_replaceRun_cases t with ⟨heq, _⟩ | ⟨wr, hwr, _, heq⟩
  · rw [heq]; exact hu
  · rw [heq]
    intro c hc
    rw [(abbrev_word_chars wr hwr).2 c hc,
      (abbrev_word_chars wr hwr).2 _ (headI_mem (abbrev_nonempty wr hwr).2)]

theorem chunks_applyAbbrevs (s : List Char) :
    chunks (applyAbbrevs s) =
      (chunks s).map
        (fun t => abbreviations.foldl (fun acc p => replaceRun p.1 p.2 acc) t) := by
  rw [applyAbbrevs_eq]
  rcases chunks_valid s with ⟨h1, h2, h3⟩
  apply chunks_flatten_of_valid
  · intro t ht
    rcases List.mem_map.mp ht with ⟨t₀, ht₀, rfl⟩
    exact foldAbbrev_ne_nil (h1 t₀ ht₀)
  · intro t ht
    rcases List.mem_map.mp ht with ⟨t₀, ht₀, rfl⟩
    exact foldAbbrev_uniform (h2 t₀ ht₀)
  · rw [List.chain'_map]
    apply List.Chain'.imp _ h3
    intro a b hab
    rw [foldAbbrev_headI_wordness a, foldAbbrev_headI_wordness b]
    exact hab

theorem foldAbbrev_no_pattern (t : List Char) :
    ∀ wq ∈ abbreviations,
      abbreviations.foldl (fun acc p => replaceRun p.1 p.2 acc) t ≠ wq.1 := by
  rcases foldl_replaceRun_cases t with ⟨heq, hno⟩ | ⟨wr, hwr, _, heq⟩
  · rw [heq]; exact hno
  · rw [heq]; exact fun wq hwq => abbrev_repl_not_pattern wr hwr wq hwq

theorem applyAbbrevs_fixed_of_no_pattern {s : List Char}
    (h : ∀ t ∈ chunks s, ∀ wq ∈ abbreviations, t ≠ wq.1) :
    applyAbbrevs s = s := by
  rw [applyAbbrevs_eq]
  have hmap : (chunks s).map
      (fun t => abbreviations.foldl (fun acc p => replaceRun p.1 p.2 acc) t) = chunks s := by
    conv_rhs => rw [← List.map_id (chunks s)]
    exact List.map_congr_left
      (fun t ht => foldl_replaceRun_no_match abbreviations t (h t ht))
  rw [hmap, chunks_flatten]

theorem applyAbbrevs_applyAbbrevs (s : List Char) :
    applyAbbrevs (applyAbbrevs s) = applyAbbrevs s := by
  apply applyAbbrevs_fixed_of_no_pattern
  rw [chunks_applyAbbrevs]
  intro t ht
  rcases List.mem_map.mp ht with ⟨t₀, _, rfl⟩
  exact foldAbbrev_no_pattern t₀

/-! ## Whitespace collapse lemmas -/

theorem collapseAux_cons_nonspace {c : Char} (h : pyIsSpace c = false)
    (b : Bool) (cs : List Char) :
    collapseAux b (c :: cs) = c :: collapseAux false cs := by
  rw [collapseAux, if_neg (by simp [h])]

theorem collapseAux_cons_space {c : Char} (h : pyIsSpace c = true) (cs : List Char) :
    collapseAux false (c :: cs) = ' ' :: collapseAux true cs ∧
    collapseAux true (c :: cs) = collapseAux true cs := by
  constructor <;> rw [collapseAux, if_pos (by simp [h])] <;> rfl

theorem collapseAux_mem :
    ∀ (l : List Char) (b : Bool) (c : Char), c ∈ collapseAux b l →
      c = ' ' ∨ (c ∈ l ∧ pyIsSpace c = false) := by
  intro l
  induction l with
  | nil => intro b c hc; simp [collapseAux] at hc
  | cons d cs ih =>
    intro b c hc
    cases hd : pyIsSpace d with
    | true =>
      cases b with
      | true =>
        rw [(collapseAux_cons_space hd cs).2] at hc
        rcases ih true c hc with h | ⟨hm, hs⟩
        · exact Or.inl h
        · exact Or.inr ⟨List.mem_cons_of_mem d hm, hs⟩
      | false =>
        rw [(collapseAux_cons_space hd cs).1] at hc
        rcases List.mem_cons.mp hc with rfl | hc
        · exact Or.inl rfl
        · rcases ih true c hc with h | ⟨hm, hs⟩
          · exact Or.inl h
          · exact Or.inr ⟨List.mem_cons_of_mem d hm, hs⟩
    | false =>
      rw [collapseAux_cons_nonspace hd b cs] at hc
      rcases List.mem_cons.mp hc with rfl | hc
      · exact Or.inr ⟨List.mem_cons_self c cs, hd⟩
      · rcases ih false c hc with h | ⟨hm, hs⟩
        · exact Or.inl h
        · exact Or.inr ⟨List.mem_cons_of_mem d hm, hs⟩

theorem collapseAux_true_head :
    ∀ (l : List Char) (c : Char), (collapseAux true l).head? = some c →
      pyIsSpace c = false := by
  intro l
  induction l with
  | nil => intro c hc; simp [collapseAux] at hc
  | cons d cs ih =>
    intro c hc
    cases hd : pyIsSpace d with
    | true =>
      rw [(collapseAux_cons_space hd cs).2] at hc
      exact ih c hc
    | false =>
      rw [collapseAux_cons_nonspace hd true cs] at hc
      simp only [List.head?_cons, Option.some.injEq] at hc
      subst hc
      exact hd

theorem collapseAux_chain' :
    ∀ (l : List Char) (b : Bool),
      List.Chain' (fun a c => ¬(pyIsSpace a = true ∧ pyIsSpace c = true))
        (collapseAux b l) := by
  intro l
  induction l with
  | nil => intro b; simp [collapseAux]
  | cons d cs ih =>
    intro b
    cases hd : pyIsSpace d with
    | true =>
      cases b with
      | true => rw [(collapseAux_cons_space hd cs).2]; exact ih true
      | false =>
        rw [(collapseAux_cons_space hd cs).1]
        apply List.chain'_cons'.mpr
        refine ⟨?_, ih true⟩
        intro y hy
        rw [collapseAux_true_head cs y hy]
        simp
    | false =>
      rw [collapseAux_cons_nonspace hd b cs]
      apply List.chain'_cons'.mpr
      refine ⟨?_, ih false⟩
      intro y _
      rw [hd]
      simp

theorem collapseAux_fixed :
    ∀ (l : List Char) (b : Bool),
      (∀ c ∈ l, pyIsSpace c = true → c = ' ') →
      List.Chain' (fun a c => ¬(pyIsSpace a = true ∧ pyIsSpace c = true)) l →
      (b = true → ∀ c, l.head? = some c → pyIsSpace c = false) →
      collapseAux b l = l := by
  intro l
  induction l with
  | nil => intro b _ _ _; rfl
  | cons d cs ih =>
    intro b hchars hchain hhead
    cases hd : pyIsSpace d with
    | true =>
      cases b with
      | true => exact absurd hd (by simp [hhead rfl d rfl])
      | false =>
        rw [(collapseAux_cons_space hd cs).1,
          hchars d (List.mem_cons_self d cs) hd]
        congr 1
        apply ih true
        · exact fun c hc => hchars c (List.mem_cons_of_mem d hc)
        · exact hchain.tail
        · intro _ c hc
          have := (List.chain'_cons'.mp hchain).1 c hc
          cases hcs : pyIsSpace c
          · rfl
          · exact absurd ⟨hd, hcs⟩ this
    | false =>
      rw [collapseAux_cons_nonspace hd b cs]
      congr 1
      apply ih false
      · exact fun c hc => hchars c (List.mem_cons_of_mem d hc)
      · exact hchain.tail
      · intro hfalse
        exact absurd hfalse (by simp)

theorem collapseAux_false_eq_nil {cs : List Char} :
    collapseAux false cs = [] ↔ cs = [] := by
  constructor
  · intro h
    cases cs with
    | nil => rfl
    | cons d cs' =>
      cases hd : pyIsSpace d with
      | true => rw [(collapseAux_cons_space hd cs').1] at h; exact absurd h (by simp)
      | false => rw [collapseAux_cons_nonspace hd false cs'] at h; exact absurd h (by simp)
  · intro h; subst h; rfl

theorem collapseAux_true_eq_nil :
    ∀ {cs : List Char}, collapseAux true cs = [] → ∀ c ∈ cs, pyIsSpace c = true := by
  intro cs
  induction cs with
  | nil => intro _ c hc; simp at hc
  | cons d cs' ih =>
    intro h c hc
    cases hd : pyIsSpace d with
    | true =>
      rw [(collapseAux_cons_space hd cs').2] at h
      rcases List.mem_cons.mp hc with rfl | hc
      · exact hd
      · exact ih h c hc
    | false =>
      rw [collapseAux_cons_nonspace hd true cs'] at h
      exact absurd h (by simp)

theorem collapseAux_getLast_nonspace :
    ∀ (l : List Char) (b : Bool),
      (∀ c, l.getLast? = some c → pyIsSpace c = false) →
      ∀ c, (collapseAux b l).getLast? = some c → pyIsSpace c = false := by
  intro l
  induction l with
  | nil => intro b _ c hc; simp [collapseAux] at hc
  | cons d cs ih =>
    intro b hlast c hc
    cases hd : pyIsSpace d with
    | true =>
      have hcs : cs ≠ [] := by
        rintro rfl
        exact absurd (hlast d rfl) (by simp [hd])
      have hlast' : ∀ x, cs.getLast? = some x → pyIsSpace x = false := by
        intro x hx
        apply hlast
        obtain ⟨e, cs', rfl⟩ := List.exists_cons_of_ne_nil hcs
        rw [List.getLast?_cons_cons]
        exact hx
      cases b with
      | true =>
        rw [(collapseAux_cons_space hd cs).2] at hc
        exact ih true hlast' c hc
      | false =>
        rw [(collapseAux_cons_space hd cs).1] at hc
        have hY : collapseAux true cs ≠ [] := by
          intro hnil
          have hall := collapseAux_true_eq_nil hnil
          have hlx : cs.getLast? = some (cs.getLast hcs) := List.getLast?_eq_getLast cs hcs
          have hns := hlast' _ hlx
          have hmem := List.getLast_mem hcs
          rw [hall _ hmem] at hns
          exact absurd hns (by simp)
        obtain ⟨e, Y', hY'⟩ := List.exists_cons_of_ne_nil hY
        rw [hY', List.getLast?_cons_cons] at hc
        rw [← hY'] at hc
        exact ih true hlast' c hc
    | false =>
      rw [collapseAux_cons_nonspace hd b cs] at hc
      by_cases hcs : cs = []
      · subst hcs
        simp only [collapseAux, List.getLast?_singleton, Option.some.injEq] at hc
        subst hc
        exact hd
      · have hlast' : ∀ x, cs.getLast? = some x → pyIsSpace x = false := by
          intro x hx
          apply hlast
          obtain ⟨e, cs', rfl⟩ := List.exists_cons_of_ne_nil hcs
          rw [List.getLast?_cons_cons]
          exact hx
        have hX : collapseAux false cs ≠ [] := fun hnil =>
          hcs (collapseAux_false_eq_nil.mp hnil)
        obtain ⟨e, X', hX'⟩ := List.exists_cons_of_ne_nil hX
        rw [hX', List.getLast?_cons_cons, ← hX'] at hc
        exact ih false hlast' c hc

/-! ## Strip lemmas -/

theorem stripEnds_mem {l : List Char} {c : Char} (hc : c ∈ stripEnds l) : c ∈ l := by
  unfold stripEnds at hc
  rw [List.mem_reverse] at hc
  have h1 := (List.dropWhile_suffix pyIsSpace).subset hc
  rw [List.mem_reverse] at h1
  exact (List.dropWhile_suffix pyIsSpace).subset h1

theorem stripEnds_head_nonspace {l : List Char} {c : Char}
    (hc : (stripEnds l).head? = some c) : pyIsSpace c = false := by
  unfold stripEnds at hc
  have hsuf : (l.dropWhile pyIsSpace).reverse.dropWhile pyIsSpace <:+
      (l.dropWhile pyIsSpace).reverse := List.dropWhile_suffix _
  have hpre' := List.reverse_prefix.mpr hsuf
  rw [List.reverse_reverse] at hpre'
  have hpre : ((l.dropWhile pyIsSpace).reverse.dropWhile pyIsSpace).reverse <+:
      l.dropWhile pyIsSpace := hpre'
  obtain ⟨t, ht⟩ := hpre
  have hne : ((l.dropWhile pyIsSpace).reverse.dropWhile pyIsSpace).reverse ≠ [] := by
    intro hnil
    rw [hnil] at hc
    exact Option.noConfusion hc
  have : (l.dropWhile pyIsSpace).head? = some c := by
    rw [← ht, List.head?_append_of_ne_nil _ hne, hc]
  have hdw := List.head?_dropWhile_not pyIsSpace l
  rw [this] at hdw
  exact hdw

theorem stripEnds_getLast_nonspace {l : List Char} {c : Char}
    (hc : (stripEnds l).getLast? = some c) : pyIsSpace c = false := by
  unfold stripEnds at hc
  rw [List.getLast?_reverse] at hc
  have hdw := List.head?_dropWhile_not pyIsSpace (l.dropWhile pyIsSpace).reverse
  rw [hc] at hdw
  exact hdw

theorem stripEnds_fixed {l : List Char}
    (hhead : ∀ c, l.head? = some c → pyIsSpace c = false)
    (hlast : ∀ c, l.getLast? = some c → pyIsSpace c = false) :
    stripEnds l = l := by
  unfold stripEnds
  have h1 : l.dropWhile pyIsSpace = l := by
    cases l with
    | nil => rfl
    | cons d cs =>
      rw [List.dropWhile_cons, if_neg (by simp [hhead d rfl])]
  rw [h1]
  have h2 : l.reverse.dropWhile pyIsSpace = l.reverse := by
    cases hr : l.reverse with
    | nil => rfl
    | cons d cs =>
      rw [List.dropWhile_cons, if_neg ?_]
      have : l.getLast? = some d := by
        rw [← List.head?_reverse, hr, List.head?_cons]
      simp [hlast d this]
  rw [h2, List.reverse_reverse]

/-! ## Transfer lemmas through applyAbbrevs -/

theorem chain'_imp_mem {α : Type} {R S : α → α → Prop} :
    ∀ {l : List α}, (∀ a ∈ l, ∀ b ∈ l, R a b → S a b) →
      List.Chain' R l → List.Chain' S l := by
  intro l
  induction l with
  | nil => intro _ _; exact List.chain'_nil
  | cons a l ih =>
    intro h hc
    rcases List.chain'_cons'.mp hc with ⟨hhd, htl⟩
    apply List.chain'_cons'.mpr
    refine ⟨?_, ih ?_ htl⟩
    · intro b hb
      exact h a (List.mem_cons_self a l) b
        (List.mem_cons_of_mem a (List.mem_of_mem_head? hb)) (hhd b hb)
    · intro x hx y hy hr
      exact h x (List.mem_cons_of_mem a hx) y (List.mem_cons_of_mem a hy) hr

theorem chain'_of_all_nonspace {l : List Char}
    (h : ∀ c ∈ l, pyIsSpace c = false) :
    List.Chain' (fun a c => ¬(pyIsSpace a = true ∧ pyIsSpace c = true)) l := by
  induction l with
  | nil => exact List.chain'_nil
  | cons a l ih =>
    apply List.chain'_cons'.mpr
    refine ⟨?_, ih (fun c hc => h c (List.mem_cons_of_mem a hc))⟩
    intro y _
    rw [h a (List.mem_cons_self a l)]
    simp

theorem applyAbbrevs_mem {s y : List Char} (hfl : applyAbbrevs s = y) {c : Char}
    (hc : c ∈ y) : c ∈ s ∨ ∃ wr ∈ abbreviations, c ∈ wr.2 := by
  subst hfl
  rw [applyAbbrevs_eq] at hc
  rcases List.mem_flatten.mp hc with ⟨t', ht', hct'⟩
  rcases List.mem_map.mp ht' with ⟨t₀, ht₀, rfl⟩
  rcases foldl_replaceRun_mem abbreviations t₀ c hct' with hm | hab
  · exact Or.inl (mem_of_mem_chunks ht₀ hm)
  · exact Or.inr hab

theorem applyAbbrevs_head_nonspace {s y : List Char} (hfl : applyAbbrevs s = y)
    (hs : ∀ c, s.head? = some c → pyIsSpace c = false) :
    ∀ c, y.head? = some c → pyIsSpace c = false := by
  subst hfl
  intro c hc
  cases s with
  | nil =>
    rw [show applyAbbrevs [] = [] from rfl] at hc
    exact Option.noConfusion hc
  | cons a s' =>
    rw [applyAbbrevs_eq] at hc
    obtain ⟨u, L, hchunks⟩ := chunksAux_head_structure s' (pyIsWordChar a) [a]
    rw [show chunks (a :: s') = chunksAux (pyIsWordChar a) [a] s' from rfl, hchunks] at hc
    simp only [List.map_cons, List.flatten_cons, List.reverse_singleton] at hc
    have hne : abbreviations.foldl (fun acc p => replaceRun p.1 p.2 acc)
        ([a] ++ u) ≠ [] := foldAbbrev_ne_nil (by simp)
    rw [List.head?_append_of_ne_nil _ hne] at hc
    rcases foldl_replaceRun_cases ([a] ++ u) with ⟨heq, _⟩ | ⟨wr, hwr, _, heq⟩
    · rw [heq] at hc
      simp only [List.singleton_append, List.head?_cons, Option.some.injEq] at hc
      subst hc
      exact hs _ rfl
    · rw [heq] at hc
      have hmem := List.mem_of_mem_head? hc
      rw [word_not_space ((abbrev_word_chars wr hwr).2 c hmem)]

theorem flatten_getLast? :
    ∀ (L : List (List Char)) (t : List Char), (∀ u ∈ L, u ≠ []) →
      L.getLast? = some t → L.flatten.getLast? = t.getLast? := by
  intro L
  induction L with
  | nil => intro t _ h; exact Option.noConfusion h
  | cons u L' ih =>
    intro t hne hlast
    cases L' with
    | nil =>
      simp only [List.getLast?_singleton, Option.some.injEq] at hlast
      subst hlast
      simp
    | cons v L'' =>
      rw [List.getLast?_cons_cons] at hlast
      rw [List.flatten_cons, List.getLast?_append_of_ne_nil]
      · exact ih t (fun x hx => hne x (List.mem_cons_of_mem u hx)) hlast
      · rw [List.flatten_cons]
        exact List.append_ne_nil_of_left_ne_nil
          (hne v (List.mem_cons_of_mem u (List.mem_cons_self v L''))) _

theorem applyAbbrevs_getLast_nonspace {s y : List Char} (hfl : applyAbbrevs s = y)
    (hs : ∀ c, s.getLast? = some c → pyIsSpace c = false) :
    ∀ c, y.getLast? = some c → pyIsSpace c = false := by
  subst hfl
  intro c hc
  cases hL : chunks s with
  | nil =>
    rw [applyAbbrevs_eq, hL] at hc
    exact Option.noConfusion hc
  | cons t₀ L' =>
    rcases chunks_valid s with ⟨h1, _, _⟩
    have hLne : chunks s ≠ [] := by rw [hL]; simp
    obtain ⟨tL, htL⟩ : ∃ tL, (chunks s).getLast? = some tL := by
      rw [hL]
      exact ⟨(t₀ :: L').getLast (by simp), List.getLast?_eq_getLast _ (by simp)⟩
    have htLmem : tL ∈ chunks s := List.mem_of_mem_getLast? htL
    have hslast : s.getLast? = tL.getLast? := by
      conv_lhs => rw [← chunks_flatten s]
      exact flatten_getLast? (chunks s) tL h1 htL
    rw [applyAbbrevs_eq] at hc
    have hmaplast : ((chunks s).map
        (fun t => abbreviations.foldl (fun acc p => replaceRun p.1 p.2 acc) t)).getLast? =
        some (abbreviations.foldl (fun acc p => replaceRun p.1 p.2 acc) tL) := by
      rw [List.getLast?_map, htL, Option.map_some']
    rw [flatten_getLast? _ _ ?nonempty hmaplast] at hc
    case nonempty =>
      intro x hx
      rcases List.mem_map.mp hx with ⟨x₀, hx₀, rfl⟩
      exact foldAbbrev_ne_nil (h1 x₀ hx₀)
    rcases foldl_replaceRun_cases tL with ⟨heq, _⟩ | ⟨wr, hwr, _, heq⟩
    · rw [heq] at hc
      apply hs
      rw [hslast]
      exact hc
    · rw [heq] at hc
      have hmem := List.mem_of_mem_getLast? hc
      rw [word_not_space ((abbrev_word_chars wr hwr).2 c hmem)]

set_option maxHeartbeats 2000000 in
theorem applyAbbrevs_chain {s y : List Char} (hfl : applyAbbrevs s = y)
    (hchain : List.Chain' (fun a c => ¬(pyIsSpace a = true ∧ pyIsSpace c = true)) s) :
    List.Chain' (fun a c => ¬(pyIsSpace a = true ∧ pyIsSpace c = true)) y := by
  subst hfl
  rw [applyAbbrevs_eq]
  rcases chunks_valid s with ⟨h1, h2, h3⟩
  have hnil : [] ∉ (chunks s).map
      (fun t => abbreviations.foldl (fun acc p => replaceRun p.1 p.2 acc) t) := by
    intro hmem
    rcases List.mem_map.mp hmem with ⟨t₀, ht₀, heq⟩
    exact foldAbbrev_ne_nil (h1 t₀ ht₀) heq
  apply (List.chain'_flatten hnil).mpr
  constructor
  · intro l hl
    rcases List.mem_map.mp hl with ⟨t₀, ht₀, hfl⟩
    rcases foldl_replaceRun_cases t₀ with ⟨heq, _⟩ | ⟨wr, hwr, _, heq⟩
    · have hlt : l = t₀ := by
        rw [← hfl]
        exact heq
      subst hlt
      apply List.Chain'.infix hchain
      rw [← chunks_flatten s]
      exact List.infix_of_mem_flatten ht₀
    · have hlr : l = wr.2 := by
        rw [← hfl]
        exact heq
      subst hlr
      exact chain'_of_all_nonspace
        (fun c hc => word_not_space ((abbrev_word_chars wr hwr).2 c hc))
  · rw [List.chain'_map]
    apply chain'_imp_mem ?imp h3
    case imp =>
      intro t₁ ht₁ t₂ ht₂ hR x hx y hy
      cases hw2 : pyIsWordChar t₂.headI with
      | true =>
        have hy' := List.mem_of_mem_head? hy
        have hu := foldAbbrev_uniform (h2 t₂ ht₂) y hy'
        rw [foldAbbrev_headI_wordness t₂, hw2] at hu
        rw [word_not_space hu]
        simp
      | false =>
        have hw1 : pyIsWordChar t₁.headI = true := by
          cases hw1 : pyIsWordChar t₁.headI with
          | true => rfl
          | false => rw [hw1, hw2] at hR; exact absurd rfl hR
        have hx' := List.mem_of_mem_getLast? hx
        have hu := foldAbbrev_uniform (h2 t₁ ht₁) x hx'
        rw [foldAbbrev_headI_wordness t₁, hw1] at hu
        rw [word_not_space hu]
        simp

/-! ## Idempotence of normalization on punctuation-free addresses -/

/-- C6 (amended): on addresses containing no commas and no periods,
GeocodingCache._normalize_address is idempotent.  (The restriction is
needed because the final punctuation-stripping step can create new
whitespace runs or new abbreviation words that only a second pass
rewrites.) -/
theorem normalize_address_idempotent_no_punct (address : List Char)
    (hnc : (',' : Char) ∉ address) (hnp : ('.' : Char) ∉ address) :
    _normalize_address (_normalize_address address) = _normalize_address address := by
  obtain ⟨w, hw⟩ : ∃ w, address.map pyLowerChar = w := ⟨_, rfl⟩
  obtain ⟨zs, hzs⟩ : ∃ zs, stripEnds w = zs := ⟨_, rfl⟩
  obtain ⟨z, hz⟩ : ∃ z, collapseSpaces zs = z := ⟨_, rfl⟩
  obtain ⟨y, hy⟩ : ∃ y, applyAbbrevs z = y := ⟨_, rfl⟩
  have hz_head : ∀ c, z.head? = some c → pyIsSpace c = false := by
    intro c hc
    rw [← hz] at hc
    cases hcase : zs with
    | nil =>
      rw [hcase] at hc
      exact Option.noConfusion hc
    | cons d cs =>
      have hd : pyIsSpace d = false :=
        stripEnds_head_nonspace (l := w) (by rw [hzs, hcase, List.head?_cons])
      rw [hcase, collapseSpaces, collapseAux_cons_nonspace hd false cs,
        List.head?_cons] at hc
      cases hc
      exact hd
  have hz_last : ∀ c, z.getLast? = some c → pyIsSpace c = false := by
    intro c hc
    rw [← hz, collapseSpaces] at hc
    exact collapseAux_getLast_nonspace zs false
      (fun x hx => stripEnds_getLast_nonspace (l := w) (by rw [hzs]; exact hx)) c hc
  have hz_chain : List.Chain' (fun a c => ¬(pyIsSpace a = true ∧ pyIsSpace c = true)) z := by
    rw [← hz, collapseSpaces]
    exact collapseAux_chain' zs false
  have hz_space : ∀ c ∈ z, pyIsSpace c = true → c = ' ' := by
    intro c hc hsp
    rw [← hz, collapseSpaces] at hc
    rcases collapseAux_mem zs false c hc with h | ⟨_, hns⟩
    · exact h
    · rw [hsp] at hns
      exact absurd hns (by simp)
  have hy_mem : ∀ c ∈ y, (c ∈ w ∨ c = ' ') ∨ ∃ wr ∈ abbreviations, c ∈ wr.2 := by
    intro c hc
    rcases applyAbbrevs_mem hy hc with hcz | hab
    · rw [← hz, collapseSpaces] at hcz
      rcases collapseAux_mem zs false c hcz with h | ⟨hm, _⟩
      · exact Or.inl (Or.inr h)
      · rw [← hzs] at hm
        exact Or.inl (Or.inl (stripEnds_mem hm))
    · exact Or.inr hab
  have hlower : ∀ c ∈ y, pyLowerChar c = c := by
    intro c hc
    rcases hy_mem c hc with (hcw | rfl) | ⟨wr, hwr, hcr⟩
    · rw [← hw] at hcw
      rcases List.mem_map.mp hcw with ⟨b, _, rfl⟩
      exact pyLowerChar_idem b
    · decide
    · exact ((abbrev_repl_chars wr hwr) c hcr).1
  have hpunct : ∀ c ∈ y, ¬(c = ',' ∨ c = '.') := by
    intro c hc hor
    rcases hy_mem c hc with (hcw | hsp) | ⟨wr, hwr, hcr⟩
    · rw [← hw] at hcw
      rcases List.mem_map.mp hcw with ⟨b, hb, rfl⟩
      rcases hor with h | h
      · exact hnc (pyLowerChar_eq_low (by decide) h ▸ hb)
      · exact hnp (pyLowerChar_eq_low (by decide) h ▸ hb)
    · subst hsp
      rcases hor with h | h <;> exact absurd h (by decide)
    · rcases hor with h | h
      · exact ((abbrev_repl_chars wr hwr) c hcr).2.2.1 h
      · exact ((abbrev_repl_chars wr hwr) c hcr).2.2.2 h
  have hy_space : ∀ c ∈ y, pyIsSpace c = true → c = ' ' := by
    intro c hc hsp
    rcases applyAbbrevs_mem hy hc with hcz | ⟨wr, hwr, hcr⟩
    · exact hz_space c (hz ▸ hcz) hsp
    · rw [((abbrev_repl_chars wr hwr) c hcr).2.1] at hsp
      exact absurd hsp (by simp)
  have hy_chain : List.Chain' (fun a c => ¬(pyIsSpace a = true ∧ pyIsSpace c = true)) y :=
    applyAbbrevs_chain hy hz_chain
  have hy_head : ∀ c, y.head? = some c → pyIsSpace c = false :=
    applyAbbrevs_head_nonspace hy hz_head
  have hy_last : ∀ c, y.getLast? = some c → pyIsSpace c = false :=
    applyAbbrevs_getLast_nonspace hy hz_last
  have hfilter : stripPunct y = y := by
    apply List.filter_eq_self.mpr
    intro c hc
    have hhc := hpunct c hc
    push_neg at hhc
    simp only [Bool.not_eq_eq_eq_not, Bool.not_true, Bool.or_eq_false_iff,
      decide_eq_false_iff_not]
    exact hhc
  have hnorm : _normalize_address address = y := by
    rw [_normalize_address, hw, hzs, hz, hy]
    exact hfilter
  have hmap : y.map pyLowerChar = y := by
    conv_rhs => rw [← List.map_id y]
    exact List.map_congr_left hlower
  have hstrip : stripEnds y = y := stripEnds_fixed hy_head hy_last
  have hcollapse : collapseSpaces y = y := by
    rw [collapseSpaces]
    exact collapseAux_fixed y false hy_space hy_chain (fun hfalse => absurd hfalse (by simp))
  have habbrev : applyAbbrevs y = y := by
    rw [← hy]
    exact applyAbbrevs_applyAbbrevs z
  have hnormy : _normalize_address y = y := by
    rw [_normalize_address, hmap, hstrip, hcollapse, habbrev]
    exact hfilter
  rw [hnorm, hnormy]

/-- C6 counterexample: normalizing the address a-comma-b once yields a
double space (the comma is removed after whitespace collapsing), so a
second normalization pass collapses further and the result changes. -/
theorem normalize_address_not_idempotent :
    _normalize_address (_normalize_address "a , b".toList) ≠
      _normalize_address "a , b".toList ∧
    _normalize_address "a , b".toList = "a  b".toList ∧
    _normalize_address (_normalize_address "a , b".toList) = "a b".toList := by
  refine ⟨?_, by decide, by decide⟩
  decide

/-- Witness for C6 (amended): a street address without commas or periods
normalizes to the same key twice. -/
theorem normalize_address_idempotent_witness :
    _normalize_address (_normalize_address "123 Main Street".toList) =
      _normalize_address "123 Main Street".toList :=
  normalize_address_idempotent_no_punct "123 Main Street".toList
    (by decide) (by decide)
